import Mathlib

/-!
Verification of the path/template pipeline of the `ai-code-app-ronnakit`
VS Code extension.  The definitions below are a shallow embedding of the
JavaScript source (`src/command/generatePaths.js`, `src/command/storePrompt.js`,
`src/command/promptUtils.js`); strings are modelled as `List Char` internally,
JavaScript exceptions as `Except String`, and the regex-based scanners are
hand-compiled into deterministic matchers that reproduce the backtracking
behaviour of the concrete regexes used by the source.
-/

/-! ## Character classes (JS regex classes used by the source) -/

/-- JS `\s` (the whitespace characters relevant to this code base). -/
def isWsChar (c : Char) : Bool :=
  c = ' ' || c = '\t' || c = '\n' || c = '\r' || c = '\x0b' || c = '\x0c'

/-- JS `[\w.-]` : word characters plus dot and hyphen. -/
def isWordChar (c : Char) : Bool :=
  ('a' ≤ c && c ≤ 'z') || ('A' ≤ c && c ≤ 'Z') || ('0' ≤ c && c ≤ '9') ||
    c = '_' || c = '.' || c = '-'

/-- JS `[a-zA-Z]`. -/
def isAsciiLetter (c : Char) : Bool :=
  ('a' ≤ c && c ≤ 'z') || ('A' ≤ c && c ≤ 'Z')

/-- JS `String.prototype.trim` on a char list. -/
def trimChars (l : List Char) : List Char :=
  ((l.dropWhile isWsChar).reverse.dropWhile isWsChar).reverse

/-- JS `trim` on a `String`. -/
def jsTrim (s : String) : String :=
  ⟨trimChars s.data⟩

/-! ## Path Normalizer (`normalizeSegments` in generatePaths.js) -/

/-- POSIX `path.isAbsolute` / `startsWith("/")`: a leading forward slash. -/
def startsWithSlash (l : List Char) : Bool :=
  match l with
  | '/' :: _ => true
  | _ => false

/-- JS `/^[A-Z]:/` : an uppercase drive-letter prefix. -/
def hasUpperDrive (l : List Char) : Bool :=
  match l with
  | c :: ':' :: _ => 'A' ≤ c && c ≤ 'Z'
  | _ => false

/-- JS `pathStr.split(/[/\\]/)` : split on every `/` or `\`, keeping empty
pieces. -/
def splitSeps : List Char → List (List Char)
  | [] => [[]]
  | c :: rest =>
    if c = '/' || c = '\\' then
      [] :: splitSeps rest
    else
      match splitSeps rest with
      | [] => [[c]]
      | seg :: segs => (c :: seg) :: segs

/-- The `for (const segment of segments)` loop of `normalizeSegments`:
`.` segments are skipped, `..` throws, everything else is kept. -/
def normLoop : List String → Except String (List String)
  | [] => .ok []
  | seg :: rest =>
    if seg = "." then normLoop rest
    else if seg = ".." then .error "Parent directory references not allowed"
    else (normLoop rest).map (seg :: ·)

/-- `normalizeSegments` from `generatePaths.js` (POSIX `path.isAbsolute`
semantics, i.e. a leading `/`; the source additionally checks
`pathStr.startsWith("/")`, which is the same test, and `/^[A-Z]:/`).
A thrown error propagates, which `Except.map` models. -/
def normalizeSegments (pathStr : String) : Except String String :=
  if startsWithSlash pathStr.data || startsWithSlash pathStr.data
      || hasUpperDrive pathStr.data then
    .error "Absolute paths not allowed"
  else
    let segments := ((splitSeps pathStr.data).map (fun l => (⟨l⟩ : String))).filter
      (fun seg => seg.length > 0)
    (normLoop segments).map (String.intercalate "/")

/-- The raw `/`-or-`\`-delimited segments of a string. -/
def rawSegments (s : String) : List String :=
  (splitSeps s.data).map (fun l => (⟨l⟩ : String))

/-- Declarative description of the successful result: nonempty segments
that are not `.`, rejoined with `/`. -/
def rejoinedSegments (s : String) : String :=
  String.intercalate "/"
    (((rawSegments s).filter (fun seg => seg.length > 0)).filter (fun seg => seg ≠ "."))

/-! ## Path Classifier (`inferPathKind`) -/

inductive PathKind where
  | file
  | directory
deriving DecidableEq, Repr

/-- Node `path.basename` for the normalized (relative, no trailing slash)
paths this code feeds it: the characters after the last `/`. -/
def jsBasename (s : String) : String :=
  ⟨(s.data.reverse.takeWhile (fun c => c ≠ '/')).reverse⟩

/-- `basename.startsWith(".")`. -/
def startsWithDot (l : List Char) : Bool :=
  match l with
  | '.' :: _ => true
  | _ => false

/-- `inferPathKind` from `generatePaths.js`: a basename containing a dot,
other than a dotfile, is a file; everything else is a directory. -/
def inferPathKind (pathStr : String) : PathKind :=
  let basename := (jsBasename pathStr).data
  if basename.contains '.' && !(startsWithDot basename) then
    .file
  else
    .directory

/-! ## Claims C1 and C10: the Path Normalizer -/

/-- `true` exactly when the computation threw. -/
def isErr {α : Type} : Except String α → Bool
  | .error _ => true
  | .ok _ => false

theorem isErr_map {α β : Type} (f : α → β) (x : Except String α) :
    isErr (x.map f) = isErr x := by
  cases x <;> rfl

theorem normLoop_cons (seg : String) (rest : List String) :
    normLoop (seg :: rest) =
      if seg = "." then normLoop rest
      else if seg = ".." then .error "Parent directory references not allowed"
      else (normLoop rest).map (seg :: ·) := rfl

theorem normLoop_ok (l : List String) (h : ".." ∉ l) :
    normLoop l = .ok (l.filter (· ≠ ".")) := by
  induction l with
  | nil => rfl
  | cons seg rest ih =>
    simp only [List.mem_cons, not_or] at h
    obtain ⟨h1, h2⟩ := h
    rw [normLoop_cons]
    by_cases hdot : seg = "."
    · subst hdot
      rw [if_pos rfl, ih h2]
      simp
    · have hdd : seg ≠ ".." := fun hc => h1 hc.symm
      rw [if_neg hdot, if_neg hdd, ih h2]
      simp [Except.map, List.filter_cons, hdot]

theorem normLoop_err_iff (l : List String) :
    isErr (normLoop l) = true ↔ ".." ∈ l := by
  induction l with
  | nil => simp [normLoop, isErr]
  | cons seg rest ih =>
    rw [normLoop_cons]
    by_cases hdot : seg = "."
    · subst hdot
      rw [if_pos rfl, ih]
      simp only [List.mem_cons]
      constructor
      · exact Or.inr
      · rintro (hc | hc)
        · exact absurd hc.symm (by decide)
        · exact hc
    · rw [if_neg hdot]
      by_cases hdd : seg = ".."
      · subst hdd
        rw [if_pos rfl]
        simp [isErr]
      · rw [if_neg hdd, isErr_map, ih]
        simp only [List.mem_cons]
        constructor
        · exact Or.inr
        · rintro (hc | hc)
          · exact absurd hc.symm hdd
          · exact hc

theorem mem_filter_pos_iff (l : List String) :
    ".." ∈ l.filter (fun seg => seg.length > 0) ↔ ".." ∈ l := by
  constructor
  · exact fun h => (List.mem_filter.mp h).1
  · exact fun h => List.mem_filter.mpr ⟨h, by decide⟩

/-- C1: `normalize` fails with `InvalidPath` iff the input is absolute
(leading `/` or an uppercase drive-letter prefix) or some `/`-or-`\`-delimited
segment equals `..`; otherwise it succeeds, dropping `.` segments and
rejoining the remaining segments with `/`; `normalize("a/./b/../c")` fails
while `normalize("a/./b/c")` returns `"a/b/c"`. -/
theorem normalizeSegments_invalid_iff_spec :
    (∀ raw : String,
        (isErr (normalizeSegments raw) = true ↔
          startsWithSlash raw.data = true ∨ hasUpperDrive raw.data = true ∨
            ".." ∈ rawSegments raw)
      ∧ (startsWithSlash raw.data = false → hasUpperDrive raw.data = false →
          ".." ∉ rawSegments raw →
          normalizeSegments raw = .ok (rejoinedSegments raw)))
    ∧ normalizeSegments "a/./b/../c" = .error "Parent directory references not allowed"
    ∧ normalizeSegments "a/./b/c" = .ok "a/b/c" := by
  have hmain : ∀ raw : String,
      (isErr (normalizeSegments raw) = true ↔
        startsWithSlash raw.data = true ∨ hasUpperDrive raw.data = true ∨
          ".." ∈ rawSegments raw)
      ∧ (startsWithSlash raw.data = false → hasUpperDrive raw.data = false →
          ".." ∉ rawSegments raw →
          normalizeSegments raw = .ok (rejoinedSegments raw)) := by
    intro raw
    by_cases h1 : startsWithSlash raw.data = true
    · constructor
      · simp only [normalizeSegments, h1, Bool.true_or, if_pos rfl]
        simp [isErr, h1]
      · intro hc; rw [h1] at hc; cases hc
    · rw [Bool.not_eq_true] at h1
      by_cases h2 : hasUpperDrive raw.data = true
      · constructor
        · simp only [normalizeSegments, h1, h2, Bool.or_true, Bool.or_false, if_pos rfl]
          simp [isErr, h1, h2]
        · intro _ hc; rw [h2] at hc; cases hc
      · rw [Bool.not_eq_true] at h2
        have hcond : (startsWithSlash raw.data || startsWithSlash raw.data
            || hasUpperDrive raw.data) = false := by
          rw [h1, h2]; rfl
        have hunfold : normalizeSegments raw =
            (normLoop ((rawSegments raw).filter (fun seg => seg.length > 0))).map
              (String.intercalate "/") := by
          simp only [normalizeSegments, hcond, Bool.false_eq_true, if_false]
          rfl
        constructor
        · rw [hunfold, isErr_map, normLoop_err_iff, mem_filter_pos_iff]
          simp [h1, h2]
        · intro _ _ h3
          rw [hunfold, normLoop_ok _ (by rw [mem_filter_pos_iff]; exact h3)]
          rfl
  exact ⟨hmain, rfl, rfl⟩

/-- Witness for the hypothesised branch of `normalizeSegments_invalid_iff_spec`. -/
theorem normalizeSegments_invalid_iff_spec_witness :
    normalizeSegments "x/./y" = .ok (rejoinedSegments "x/./y") :=
  (normalizeSegments_invalid_iff_spec.1 "x/./y").2 (by decide) (by decide) (by decide)

/-- C10: the drive-letter rejection matches only uppercase letters: the
lowercase-drive input `c:\x` is not rejected (POSIX absolute-path semantics)
and normalizes to the rejoined relative string `c:/x`, while the uppercase
`C:\x` is rejected. -/
theorem normalizeSegments_lowercase_drive :
    normalizeSegments "c:\\x" = .ok "c:/x"
    ∧ isErr (normalizeSegments "C:\\x") = true := by
  exact ⟨rfl, rfl⟩

/-! ## JSON values and `JSON.parse` (used by `parseJSONResponse`) -/

inductive Json where
  | null
  | bool (b : Bool)
  | num (mant : Int) (exp10 : Int)
  | str (s : String)
  | arr (xs : List Json)
  | obj (fields : List (String × Json))

/-- JS truthiness of a parsed JSON value (`if (parsed) return parsed`):
`null`, `false`, `0` and `""` are falsy; objects and arrays are truthy.
A number is stored exactly as `mant * 10 ^ exp10`, which is zero iff the
mantissa is zero (IEEE rounding of extreme literals is not reproduced and
never observed by the claims). -/
def jsTruthy : Json → Bool
  | .null => false
  | .bool b => b
  | .num mant _ => decide (mant ≠ 0)
  | .str s => decide (s ≠ "")
  | .arr _ => true
  | .obj _ => true

/-- JSON-grammar whitespace. -/
def isJsonWs (c : Char) : Bool :=
  c = ' ' || c = '\t' || c = '\n' || c = '\r'

def isDigitChar (c : Char) : Bool :=
  '0' ≤ c && c ≤ '9'

def hexVal (c : Char) : Option Nat :=
  let n := c.toNat
  if 48 ≤ n && n ≤ 57 then some (n - 48)
  else if 97 ≤ n && n ≤ 102 then some (n - 87)
  else if 65 ≤ n && n ≤ 70 then some (n - 55)
  else none

/-- JSON string body after the opening quote: returns content and rest after
the closing quote. Control characters are rejected, the standard escapes are
interpreted. -/
def jstringLoop : List Char → Option (List Char × List Char)
  | [] => none
  | '"' :: r => some ([], r)
  | '\\' :: 'u' :: h1 :: h2 :: h3 :: h4 :: r =>
    match hexVal h1, hexVal h2, hexVal h3, hexVal h4 with
    | some a, some b, some c, some d =>
      (jstringLoop r).map (fun p => (Char.ofNat (((a * 16 + b) * 16 + c) * 16 + d) :: p.1, p.2))
    | _, _, _, _ => none
  | '\\' :: e :: r =>
    match e with
    | '"' => (jstringLoop r).map (fun p => ('"' :: p.1, p.2))
    | '\\' => (jstringLoop r).map (fun p => ('\\' :: p.1, p.2))
    | '/' => (jstringLoop r).map (fun p => ('/' :: p.1, p.2))
    | 'b' => (jstringLoop r).map (fun p => ('\x08' :: p.1, p.2))
    | 'f' => (jstringLoop r).map (fun p => ('\x0c' :: p.1, p.2))
    | 'n' => (jstringLoop r).map (fun p => ('\n' :: p.1, p.2))
    | 'r' => (jstringLoop r).map (fun p => ('\r' :: p.1, p.2))
    | 't' => (jstringLoop r).map (fun p => ('\t' :: p.1, p.2))
    | _ => none
  | c :: r =>
    if c.toNat < 0x20 then none
    else (jstringLoop r).map (fun p => (c :: p.1, p.2))

def digitsToNat (l : List Char) : Nat :=
  l.foldl (fun acc c => acc * 10 + (c.toNat - '0'.toNat)) 0

/-- JSON number literal parser, yielding the exact value
`mant * 10 ^ exp10`. -/
def jnumber (l : List Char) : Option ((Int × Int) × List Char) :=
  let (negSign, l1) :=
    match l with
    | '-' :: r => (true, r)
    | _ => (false, l)
  let intDigits :=
    match l1 with
    | '0' :: _ => ['0']
    | _ => l1.takeWhile isDigitChar
  if intDigits.isEmpty then none
  else
    let l2 := l1.drop intDigits.length
    let (fracDigits, l3) :=
      match l2 with
      | '.' :: r =>
        let ds := r.takeWhile isDigitChar
        (ds, r.drop ds.length)
      | _ => ([], l2)
    if l2 ≠ l3 && fracDigits.isEmpty then none
    else
      let expPart : Option (Int × List Char) :=
        match l3 with
        | 'e' :: '+' :: r => some (1, r)
        | 'e' :: '-' :: r => some (-1, r)
        | 'e' :: r => some (1, r)
        | 'E' :: '+' :: r => some (1, r)
        | 'E' :: '-' :: r => some (-1, r)
        | 'E' :: r => some (1, r)
        | _ => none
      match expPart with
      | some (esign, r) =>
        let eds := r.takeWhile isDigitChar
        if eds.isEmpty then none
        else
          let mant : Int := (digitsToNat (intDigits ++ fracDigits) : Int)
          let mant := if negSign then -mant else mant
          let e : Int := esign * (digitsToNat eds : Int) - (fracDigits.length : Int)
          some ((mant, e), r.drop eds.length)
      | none =>
        let mant : Int := (digitsToNat (intDigits ++ fracDigits) : Int)
        let mant := if negSign then -mant else mant
        some ((mant, -(fracDigits.length : Int)), l3)

mutual

/-- Fuel-indexed JSON value parser (`JSON.parse` recursive descent). -/
def jparseV : Nat → List Char → Option (Json × List Char)
  | 0, _ => none
  | fuel + 1, l =>
    let l1 := l.dropWhile isJsonWs
    match l1 with
    | 'n' :: 'u' :: 'l' :: 'l' :: r => some (.null, r)
    | 't' :: 'r' :: 'u' :: 'e' :: r => some (.bool true, r)
    | 'f' :: 'a' :: 'l' :: 's' :: 'e' :: r => some (.bool false, r)
    | '"' :: r =>
      match jstringLoop r with
      | some (cs, r1) => some (.str ⟨cs⟩, r1)
      | none => none
    | '[' :: r =>
      match r.dropWhile isJsonWs with
      | ']' :: r2 => some (.arr [], r2)
      | _ =>
        match jparseArr fuel r with
        | some (xs, r2) => some (.arr xs, r2)
        | none => none
    | '\x7b' :: r =>
      match r.dropWhile isJsonWs with
      | '\x7d' :: r2 => some (.obj [], r2)
      | _ =>
        match jparseObj fuel r with
        | some (fs, r2) => some (.obj fs, r2)
        | none => none
    | _ =>
      match jnumber l1 with
      | some (me, r) => some (.num me.1 me.2, r)
      | none => none

/-- Array elements (after the opening `[`). -/
def jparseArr : Nat → List Char → Option (List Json × List Char)
  | 0, _ => none
  | fuel + 1, l =>
    match jparseV fuel l with
    | none => none
    | some (v, r) =>
      match r.dropWhile isJsonWs with
      | ',' :: r2 =>
        match jparseArr fuel r2 with
        | some (xs, r3) => some (v :: xs, r3)
        | none => none
      | ']' :: r2 => some ([v], r2)
      | _ => none

/-- Object members (after the opening brace). -/
def jparseObj : Nat → List Char → Option (List (String × Json) × List Char)
  | 0, _ => none
  | fuel + 1, l =>
    match l.dropWhile isJsonWs with
    | '"' :: r =>
      match jstringLoop r with
      | none => none
      | some (k, r1) =>
        match r1.dropWhile isJsonWs with
        | ':' :: r2 =>
          match jparseV fuel r2 with
          | none => none
          | some (v, r3) =>
            match r3.dropWhile isJsonWs with
            | ',' :: r4 =>
              match jparseObj fuel r4 with
              | some (fs, r5) => some ((⟨k⟩, v) :: fs, r5)
              | none => none
            | '\x7d' :: r4 => some ([(⟨k⟩, v)], r4)
            | _ => none
        | _ => none
    | _ => none

end

/-- The `tryParse` helper of `parseJSONResponse`: `JSON.parse`, `undefined`
on failure (including trailing garbage). -/
def tryParse (s : String) : Option Json :=
  match jparseV (2 * s.data.length + 2) s.data with
  | some (v, rest) => if (rest.dropWhile isJsonWs).isEmpty then some v else none
  | none => none

/-- `tryParse` followed by the `if (parsed)` truthiness test that guards
every `return parsed` in `parseJSONResponse`. -/
def truthyParse (s : String) : Option Json :=
  match tryParse s with
  | some v => if jsTruthy v then some v else none
  | none => none

/-! ## Response Extractor (`parseJSONResponse`) -/

/-- Does the list start with three backticks? -/
def startsWithTicks (l : List Char) : Bool :=
  match l with
  | '`' :: '`' :: '`' :: _ => true
  | _ => false

/-- Interior of the fenced block: characters up to (excluding) the first
position where three backticks start; `none` if there is no closing fence. -/
def closeSearch : List Char → Option (List Char)
  | [] => none
  | c :: rest =>
    if startsWithTicks (c :: rest) then some []
    else (closeSearch rest).map (c :: ·)

/-- First match of `/```[a-zA-Z]*\s*([\s\S]*?)\s*```/` : the engine tries
every start position in order; at a start `` ``` `` the language letters are
consumed and the lazy interior runs to the first closing `` ``` `` (the
greedy/lazy `\s*` padding around the capture only trims whitespace, which the
caller's `.trim()` removes anyway, so the untrimmed interior is returned). -/
def fenceScan : List Char → Option (List Char)
  | [] => none
  | c :: rest =>
    match c :: rest with
    | '`' :: '`' :: '`' :: after =>
      match closeSearch (after.dropWhile isAsciiLetter) with
      | some interior => some interior
      | none => fenceScan rest
    | _ => fenceScan rest

/-- `text.match(fenceRe)` followed by `fenceMatch[1].trim()`. -/
def fenceInside (text : String) : Option String :=
  (fenceScan text.data).map (fun l => (⟨trimChars l⟩ : String))

/-- JS `indexOf` for a single character. -/
def firstIdxOfChar (c : Char) : List Char → Option Nat
  | [] => none
  | d :: rest => if d = c then some 0 else (firstIdxOfChar c rest).map (· + 1)

/-- JS `lastIndexOf` for a single character. -/
def lastIdxOfChar (c : Char) (l : List Char) : Option Nat :=
  (firstIdxOfChar c l.reverse).map (fun i => l.length - 1 - i)

/-- JS `slice(s, e)` (character positions). -/
def jsSlice (l : List Char) (s e : Nat) : List Char :=
  (l.take e).drop s

/-- The `indexOf("{") / lastIndexOf("}") / slice / tryParse` block that the
source inlines verbatim twice (for the fenced interior and for the whole
text): parse the substring between the first `{` and the last `}` when both
exist in that order. -/
def braceSliceParse (str : String) : Option Json :=
  match firstIdxOfChar '\x7b' str.data, lastIdxOfChar '\x7d' str.data with
  | some s, some e =>
    if e > s then truthyParse (⟨jsSlice str.data s (e + 1)⟩ : String) else none
  | _, _ => none

/-- Step 2 of `parseJSONResponse` (the code between locating the fence and
falling through to strategy 3): the fenced interior parsed directly, then
its brace-to-brace substring. -/
def fenceResultOf (text : String) : Option Json :=
  match fenceInside text with
  | some inside =>
    match truthyParse inside with
    | some p => some p
    | none => braceSliceParse inside
  | none => none

/-- `parseJSONResponse` from `generatePaths.js`, transcribed control flow:
direct parse of the trimmed text, then the fenced block (interior first,
then its brace-to-brace substring, via `braceSliceParse`), then the
brace-to-brace substring of the whole text; the message of the thrown error
embeds the text. -/
def parseJSONResponse (text : String) : Except String Json :=
  match truthyParse (jsTrim text) with
  | some p => .ok p
  | none =>
    match fenceResultOf text with
    | some p => .ok p
    | none =>
      match braceSliceParse text with
      | some p => .ok p
      | none => .error ("Invalid JSON response: " ++ text)

/-! Spec-side description of the extractor (written from the words of §4.3
of the specification), to be compared with `parseJSONResponse`. -/

/-- Spec strategy 1: parse the trimmed whole text directly. -/
def strategyDirect (text : String) : Option Json :=
  truthyParse (jsTrim text)

/-- Spec strategy 2: locate a fenced block, parse its trimmed interior, and
if that fails parse the interior's brace-to-brace substring. -/
def strategyFenced (text : String) : Option Json :=
  match fenceInside text with
  | none => none
  | some inside => (truthyParse inside).orElse (fun _ => braceSliceParse inside)

/-- Spec strategy 3: parse the whole text's brace-to-brace substring. -/
def strategyWholeBraces (text : String) : Option Json :=
  braceSliceParse text

/-- The extractor as the specification words it: strategies in order, first
success wins, `MalformedResponse` when all fail. -/
def specExtract (text : String) : Except String Json :=
  match ((strategyDirect text).orElse (fun _ => strategyFenced text)).orElse
      (fun _ => strategyWholeBraces text) with
  | some p => .ok p
  | none => .error ("Invalid JSON response: " ++ text)

/-! ## Claims C5 and C9: the Response Extractor -/

theorem fenceResultOf_eq_strategyFenced (text : String) :
    fenceResultOf text = strategyFenced text := by
  unfold fenceResultOf strategyFenced
  cases fenceInside text with
  | none => rfl
  | some inside =>
    show (match truthyParse inside with
      | some p => some p
      | none => braceSliceParse inside) =
        (truthyParse inside).orElse (fun _ => braceSliceParse inside)
    cases truthyParse inside <;> rfl

theorem parseJSONResponse_eq_spec (text : String) :
    parseJSONResponse text = specExtract text := by
  unfold parseJSONResponse specExtract strategyDirect strategyWholeBraces
  rw [fenceResultOf_eq_strategyFenced text]
  cases truthyParse (jsTrim text) with
  | some p => rfl
  | none =>
    cases strategyFenced text with
    | some p => rfl
    | none => cases braceSliceParse text <;> rfl

theorem specExtract_err_iff (text : String) :
    isErr (specExtract text) = true ↔
      strategyDirect text = none ∧ strategyFenced text = none ∧
        strategyWholeBraces text = none := by
  unfold specExtract
  cases h1 : strategyDirect text with
  | some p => simp [Option.orElse, isErr]
  | none =>
    cases h2 : strategyFenced text with
    | some p => simp [Option.orElse, isErr]
    | none =>
      cases h3 : strategyWholeBraces text with
      | some p => simp [Option.orElse, isErr]
      | none => simp [Option.orElse, isErr]

/-- C5: the extractor tries the three strategies in order with first success
winning and fails exactly when all fail: the transcription of the code equals
the strategy pipeline written from the specification's words, failure is
equivalent to the conjunction of all three strategy failures, and the fenced
example succeeds while pure prose fails. -/
theorem parseJSONResponse_strategy_spec :
    (∀ text : String, parseJSONResponse text = specExtract text)
    ∧ (∀ text : String,
        isErr (parseJSONResponse text) = true ↔
          strategyDirect text = none ∧ strategyFenced text = none ∧
            strategyWholeBraces text = none)
    ∧ parseJSONResponse "```json\n\x7b\"paths\":[\"src\"]\x7d\n```" =
        .ok (.obj [("paths", .arr [.str "src"])])
    ∧ parseJSONResponse "no json here" = .error "Invalid JSON response: no json here" := by
  refine ⟨parseJSONResponse_eq_spec, fun text => ?_, rfl, rfl⟩
  rw [parseJSONResponse_eq_spec]
  exact specExtract_err_iff text

theorem truthyParse_truthy (s : String) (v : Json) (h : truthyParse s = some v) :
    jsTruthy v = true := by
  unfold truthyParse at h
  cases htp : tryParse s with
  | none => simp [htp] at h
  | some w =>
    simp only [htp] at h
    by_cases hw : jsTruthy w = true
    · simp only [if_pos hw] at h
      cases h
      exact hw
    · simp only [if_neg hw] at h
      cases h

theorem braceSliceParse_truthy (s : String) (v : Json) (h : braceSliceParse s = some v) :
    jsTruthy v = true := by
  unfold braceSliceParse at h
  cases hf : firstIdxOfChar '\x7b' s.data with
  | none => simp [hf] at h
  | some a =>
    cases hl : lastIdxOfChar '\x7d' s.data with
    | none => simp [hf, hl] at h
    | some b =>
      simp only [hf, hl] at h
      by_cases hgt : b > a
      · rw [if_pos hgt] at h
        exact truthyParse_truthy _ _ h
      · rw [if_neg hgt] at h
        cases h

theorem strategyFenced_truthy (text : String) (v : Json)
    (h : strategyFenced text = some v) : jsTruthy v = true := by
  unfold strategyFenced at h
  cases hfi : fenceInside text with
  | none => simp [hfi] at h
  | some inside =>
    simp only [hfi] at h
    cases h3 : truthyParse inside with
    | some q =>
      simp only [h3, Option.orElse] at h
      cases h
      exact truthyParse_truthy _ _ h3
    | none =>
      simp only [h3, Option.orElse] at h
      exact braceSliceParse_truthy _ _ h

/-- C9: every extraction strategy treats a falsy parse (such as the valid
JSON texts `null`, `false`, `0`) as a failure, so the extractor throws on
them, and a successful extraction always returns a truthy JSON value. -/
theorem parseJSONResponse_falsy_spec :
    (∀ (text : String) (v : Json), parseJSONResponse text = .ok v → jsTruthy v = true)
    ∧ isErr (parseJSONResponse "null") = true
    ∧ isErr (parseJSONResponse "false") = true
    ∧ isErr (parseJSONResponse "0") = true := by
  refine ⟨fun text v h => ?_, rfl, by decide, by decide⟩
  rw [parseJSONResponse_eq_spec] at h
  unfold specExtract at h
  cases h1 : strategyDirect text with
  | some p =>
    simp only [h1, Option.orElse] at h
    cases h
    exact truthyParse_truthy _ _ h1
  | none =>
    simp only [h1, Option.orElse] at h
    cases h2 : strategyFenced text with
    | some p =>
      simp only [h2] at h
      cases h
      exact strategyFenced_truthy _ _ h2
    | none =>
      simp only [h2] at h
      cases h3 : strategyWholeBraces text with
      | some q =>
        simp only [h3] at h
        cases h
        unfold strategyWholeBraces at h3
        exact braceSliceParse_truthy _ _ h3
      | none =>
        simp only [h3] at h
        cases h

/-- Witness for `parseJSONResponse_falsy_spec`: applying the theorem at the
concrete input `"{}"` (which parses to the truthy empty object). -/
theorem parseJSONResponse_falsy_spec_witness :
    jsTruthy (Json.obj []) = true :=
  parseJSONResponse_falsy_spec.1 "\x7b\x7d" (Json.obj []) rfl

/-! ## Plan Builder (`coerceGeneratedPaths`) and Claim C2 -/

/-- `PathPlanItem`: `content` is `""` for files and `undefined` (`none`)
for directories. -/
structure PlanItem where
  path : String
  pathKind : PathKind
  content : Option String
deriving DecidableEq, Repr

/-- The two candidate lists drawn from the parsed payload: a bare array
feeds the first (kind-inferred) list, an object contributes its `paths`
and `files` array fields (`JSON.parse` keeps the last binding of a
duplicated key, hence the last-binding lookup). -/
def objArrayField (fields : List (String × Json)) (key : String) : List Json :=
  match (fields.reverse.find? (fun p => p.1 = key)).map (fun p => p.2) with
  | some (Json.arr xs) => xs
  | _ => []

def candidateLists (payload : Json) : List Json × List Json :=
  match payload with
  | .arr xs => (xs, [])
  | .obj fields => (objArrayField fields "paths", objArrayField fields "files")
  | _ => ([], [])

/-- First loop of `coerceGeneratedPaths`: directory candidates, kind
inferred; non-strings, invalid paths, empty normalizations and duplicates
are skipped. -/
def coerceDirLoop (acc : List PlanItem) : List Json → List PlanItem
  | [] => acc
  | val :: rest =>
    match val with
    | .str s =>
      match normalizeSegments s with
      | .error _ => coerceDirLoop acc rest
      | .ok n =>
        if n = "" || acc.any (fun item => item.path = n) then
          coerceDirLoop acc rest
        else
          let kind := inferPathKind n
          coerceDirLoop
            (acc ++ [⟨n, kind, if kind = .file then some "" else none⟩]) rest
    | _ => coerceDirLoop acc rest

/-- Second loop of `coerceGeneratedPaths`: `files` candidates, kind forced
to file with empty content. -/
def coerceFileLoop (acc : List PlanItem) : List Json → List PlanItem
  | [] => acc
  | val :: rest =>
    match val with
    | .str s =>
      match normalizeSegments s with
      | .error _ => coerceFileLoop acc rest
      | .ok n =>
        if n = "" || acc.any (fun item => item.path = n) then
          coerceFileLoop acc rest
        else
          coerceFileLoop (acc ++ [⟨n, .file, some ""⟩]) rest
    | _ => coerceFileLoop acc rest

/-- `coerceGeneratedPaths` from `generatePaths.js` (the `unique` set always
holds exactly the paths already in `results`, so the duplicate test is
modelled by a membership test on the accumulator). -/
def coerceGeneratedPaths (payload : Json) : List PlanItem :=
  let (dirCandidates, fileCandidates) := candidateLists payload
  coerceFileLoop (coerceDirLoop [] dirCandidates) fileCandidates

theorem coerceDirLoop_kind (ds : List Json) (acc : List PlanItem)
    (hacc : ∀ x ∈ acc, x.pathKind = inferPathKind x.path) :
    ∀ x ∈ coerceDirLoop acc ds, x.pathKind = inferPathKind x.path := by
  induction ds generalizing acc with
  | nil => exact hacc
  | cons val rest ih =>
    cases val with
    | str s =>
      simp only [coerceDirLoop]
      split
      · exact ih acc hacc
      · split
        · exact ih acc hacc
        · refine ih _ (fun x hx => ?_)
          rcases List.mem_append.mp hx with hx | hx
          · exact hacc x hx
          · rcases List.mem_singleton.mp hx with rfl
            rfl
    | null => exact ih acc hacc
    | bool b => exact ih acc hacc
    | num m e => exact ih acc hacc
    | arr xs => exact ih acc hacc
    | obj fs => exact ih acc hacc

theorem coerceDirLoop_nodup (ds : List Json) (acc : List PlanItem)
    (hacc : (acc.map (fun y => y.path)).Nodup) :
    ((coerceDirLoop acc ds).map (fun y => y.path)).Nodup := by
  induction ds generalizing acc with
  | nil => exact hacc
  | cons val rest ih =>
    cases val with
    | str s =>
      simp only [coerceDirLoop]
      split
      · exact ih acc hacc
      · split
        · exact ih acc hacc
        · next hguard =>
          refine ih _ ?_
          rw [List.map_append, List.map_singleton]
          rw [List.nodup_append]
          refine ⟨hacc, List.nodup_singleton _, ?_⟩
          intro p hp hpn
          rcases List.mem_singleton.mp hpn with rfl
          rcases List.mem_map.mp hp with ⟨y, hy, hyp⟩
          refine hguard ?_
          simp only [Bool.or_eq_true, decide_eq_true_eq, List.any_eq_true]
          exact Or.inr ⟨y, hy, by simpa using hyp⟩
    | null => exact ih acc hacc
    | bool b => exact ih acc hacc
    | num m e => exact ih acc hacc
    | arr xs => exact ih acc hacc
    | obj fs => exact ih acc hacc

theorem coerceFileLoop_nodup (fs : List Json) (acc : List PlanItem)
    (hacc : (acc.map (fun y => y.path)).Nodup) :
    ((coerceFileLoop acc fs).map (fun y => y.path)).Nodup := by
  induction fs generalizing acc with
  | nil => exact hacc
  | cons val rest ih =>
    cases val with
    | str s =>
      simp only [coerceFileLoop]
      split
      · exact ih acc hacc
      · split
        · exact ih acc hacc
        · next hguard =>
          refine ih _ ?_
          rw [List.map_append, List.map_singleton]
          rw [List.nodup_append]
          refine ⟨hacc, List.nodup_singleton _, ?_⟩
          intro p hp hpn
          rcases List.mem_singleton.mp hpn with rfl
          rcases List.mem_map.mp hp with ⟨y, hy, hyp⟩
          refine hguard ?_
          simp only [Bool.or_eq_true, decide_eq_true_eq, List.any_eq_true]
          exact Or.inr ⟨y, hy, by simpa using hyp⟩
    | null => exact ih acc hacc
    | bool b => exact ih acc hacc
    | num m e => exact ih acc hacc
    | arr xs => exact ih acc hacc
    | obj fs => exact ih acc hacc

theorem coerceFileLoop_first_wins (fs : List Json) (acc : List PlanItem) (x : PlanItem)
    (hx : x ∈ coerceFileLoop acc fs) (hp : x.path ∈ acc.map (fun y => y.path)) :
    x ∈ acc := by
  induction fs generalizing acc with
  | nil => exact hx
  | cons val rest ih =>
    cases val with
    | str s =>
      simp only [coerceFileLoop] at hx
      split at hx
      · exact ih acc hx hp
      · split at hx
        · exact ih acc hx hp
        · next hguard =>
          have hx' := ih _ hx (by rw [List.map_append]; exact List.mem_append_left _ hp)
          rcases List.mem_append.mp hx' with hx'' | hx''
          · exact hx''
          · rcases List.mem_singleton.mp hx'' with rfl
            rcases List.mem_map.mp hp with ⟨y, hy, hyp⟩
            refine absurd ?_ hguard
            simp only [Bool.or_eq_true, decide_eq_true_eq, List.any_eq_true]
            exact Or.inr ⟨y, hy, by simpa using hyp⟩
    | null => exact ih acc hx hp
    | bool b => exact ih acc hx hp
    | num m e => exact ih acc hx hp
    | arr xs => exact ih acc hx hp
    | obj fs => exact ih acc hx hp

/-- C2: the plan builder processes the `paths`-or-bare-array candidates
first and then the `files` candidates; within one build every normalized
path is accepted only once (the output paths are duplicate-free), first
classification wins (an item whose path was accepted during the directory
pass keeps the classifier's kind even when `files` lists it again), and the
documented example yields exactly `src/app.js` as a file followed by
`src/lib` as a directory. -/
theorem coerceGeneratedPaths_dedup_spec :
    (∀ payload : Json, ((coerceGeneratedPaths payload).map (fun y => y.path)).Nodup)
    ∧ (∀ payload : Json, ∀ x ∈ coerceGeneratedPaths payload,
        x.path ∈ ((coerceDirLoop [] (candidateLists payload).1).map (fun y => y.path)) →
          x.pathKind = inferPathKind x.path)
    ∧ coerceGeneratedPaths (.obj [("paths", .arr [.str "src/app.js", .str "src/lib"]),
        ("files", .arr [.str "src/app.js"])]) =
      [⟨"src/app.js", .file, some ""⟩, ⟨"src/lib", .directory, none⟩] := by
  refine ⟨fun payload => ?_, fun payload x hx hp => ?_, by decide⟩
  · exact coerceFileLoop_nodup _ _ (coerceDirLoop_nodup _ [] (by simp))
  · have hxd : x ∈ coerceDirLoop [] (candidateLists payload).1 :=
      coerceFileLoop_first_wins _ _ _ hx hp
    exact coerceDirLoop_kind _ [] (by simp) x hxd

/-- Witness for `coerceGeneratedPaths_dedup_spec`: the duplicated
`src/app.js` of the documented example keeps the classifier's kind. -/
theorem coerceGeneratedPaths_dedup_spec_witness :
    (⟨"src/app.js", PathKind.file, some ""⟩ : PlanItem).pathKind =
      inferPathKind "src/app.js" :=
  coerceGeneratedPaths_dedup_spec.2.1
    (.obj [("paths", .arr [.str "src/app.js", .str "src/lib"]),
      ("files", .arr [.str "src/app.js"])])
    ⟨"src/app.js", PathKind.file, some ""⟩ (by decide) (by decide)

/-! ## Generation Orchestrator (`generateFilesFromPrompt` in storePrompt.js) -/

/-- The filesystem and editor effects one pass of the per-path loop can
perform, modelled as oracles.  `statX` is `exists` in the source, which
catches its own `stat` failure and returns a plain boolean; `openDoc` is the
`openTextDocument`/`showTextDocument` pair after a successful write. -/
structure FsOps where
  ensureParentDir : String → Except String Unit
  statX : String → Bool
  writeFile : String → String → Except String Unit
  openDoc : String → Except String Unit

/-- JS `a || b` on strings (empty string is falsy). -/
def jsOrStr (a b : String) : String :=
  if a = "" then b else a

/-- `templateNameFromPrompt` from `storePrompt.js`. -/
def templateNameFromPrompt (prompt : String) : String :=
  jsOrStr (((prompt.splitOn "\n").headD "").take 40) "prompt"

/-- The deterministic fallback content produced when the per-file content
request throws. -/
def fallbackHeader (finalPrompt targetPath : String) : String :=
  "// Generated fallback for " ++ targetPath ++ "\n// Template: " ++
    templateNameFromPrompt finalPrompt ++ "\n// Prompt snippet: " ++
    finalPrompt.take 120 ++ "...\n\n"

/-- `requestFileContentForPrompt` from `storePrompt.js`.  The chat call is
an oracle producing the response content (`response.choices?.[0]?.message?.content || ""`)
or a thrown error; `extractCode` stands for `extractCodeFromText`, whose
source (`createProjectByAI.js`) is not part of the snapshot, so the claims
are proved for every such function; `extracted || content || ""` selects the
first non-empty string. -/
def requestFileContentForPrompt (chatResult : Except String String)
    (extractCode : String → Option String) (finalPrompt targetPath : String) :
    String :=
  match chatResult with
  | .ok content =>
    jsOrStr (match extractCode content with
      | some e => e
      | none => "") (jsOrStr content "")
  | .error _ => fallbackHeader finalPrompt targetPath

/-- Outcome of the per-path body of the orchestrator loop. -/
inductive PathOutcome where
  | skipped
  | created (openFailed : Option String)
  | overwritten (openFailed : Option String)
  | failed (msg : String)
deriving DecidableEq, Repr

/-- Result of the `openTextDocument`/`showTextDocument` step after a
successful write: `none` on success, the recorded failure message otherwise. -/
def openOutcome (fs : FsOps) (p : String) : Option String :=
  match fs.openDoc p with
  | .ok _ => none
  | .error e => some ("เปิดไฟล์ไม่สำเร็จ: " ++ e)

/-- The `try { ... } catch` body run for one `relativePath`: ensure the
parent directory, check existence (`fileExists`), on a skip stop, otherwise
request content (which never throws: a content failure is masked by the
fallback header) and write; after a successful write the editor-open step may
itself fail, which is recorded without undoing the write. -/
def processOnePath (fs : FsOps) (chat : String → Except String String)
    (extractCode : String → Option String) (finalPrompt : String)
    (overwriteAll : Bool) (p : String) : PathOutcome :=
  match fs.ensureParentDir p with
  | .error e => .failed e
  | .ok _ =>
    if fs.statX p && !overwriteAll then
      .skipped
    else
      match fs.writeFile p
          (requestFileContentForPrompt (chat p) extractCode finalPrompt p) with
      | .error e => .failed e
      | .ok _ =>
        if fs.statX p then .overwritten (openOutcome fs p)
        else .created (openOutcome fs p)

/-- The four result buckets (`created`, `overwritten`, `skipped`,
`failures`). -/
structure GenResult where
  created : List String
  overwritten : List String
  skipped : List String
  failed : List (String × String)
deriving DecidableEq, Repr

/-- How one outcome extends the buckets: the open-failure branch pushes into
`failures` although the path was already pushed into `created`/`overwritten`. -/
def addOutcome (acc : GenResult) (p : String) : PathOutcome → GenResult
  | .skipped => { acc with skipped := acc.skipped ++ [p] }
  | .created none => { acc with created := acc.created ++ [p] }
  | .created (some e) =>
    { acc with created := acc.created ++ [p], failed := acc.failed ++ [(p, e)] }
  | .overwritten none => { acc with overwritten := acc.overwritten ++ [p] }
  | .overwritten (some e) =>
    { acc with overwritten := acc.overwritten ++ [p], failed := acc.failed ++ [(p, e)] }
  | .failed e => { acc with failed := acc.failed ++ [(p, e)] }

/-- `generateFilesFromPrompt` (bucket accumulation; the progress/summary UI
reporting carries no data and is elided). -/
def generateFilesFromPrompt (fs : FsOps) (chat : String → Except String String)
    (extractCode : String → Option String) (finalPrompt : String)
    (filePaths : List String) (overwriteAll : Bool) : GenResult :=
  filePaths.foldl
    (fun acc p => addOutcome acc p
      (processOnePath fs chat extractCode finalPrompt overwriteAll p))
    ⟨[], [], [], []⟩

/-! ## Claims C3 and C4: orchestrator bucket accounting -/

/-- Total number of bucket entries. -/
def bucketCount (r : GenResult) : Nat :=
  r.created.length + r.overwritten.length + r.skipped.length + r.failed.length

/-- The path appears in at least one of the four buckets. -/
def inSomeBucket (r : GenResult) (p : String) : Prop :=
  p ∈ r.created ∨ p ∈ r.overwritten ∨ p ∈ r.skipped ∨ ∃ e, (p, e) ∈ r.failed

/-- An outcome contributes a second bucket entry exactly when the post-write
editor open failed. -/
def openPenalty : PathOutcome → Nat
  | .created (some _) => 1
  | .overwritten (some _) => 1
  | _ => 0

/-- An outcome that wrote the file. -/
def isWritten : PathOutcome → Bool
  | .created _ => true
  | .overwritten _ => true
  | _ => false

theorem addOutcome_count (acc : GenResult) (p : String) (o : PathOutcome) :
    bucketCount (addOutcome acc p o) = bucketCount acc + 1 + openPenalty o := by
  cases o with
  | skipped => simp [addOutcome, bucketCount, openPenalty]; omega
  | created op => cases op <;> (simp [addOutcome, bucketCount, openPenalty]; omega)
  | overwritten op => cases op <;> (simp [addOutcome, bucketCount, openPenalty]; omega)
  | failed e => simp [addOutcome, bucketCount, openPenalty]; omega

theorem addOutcome_mono (acc : GenResult) (p q : String) (o : PathOutcome)
    (h : inSomeBucket acc q) : inSomeBucket (addOutcome acc p o) q := by
  cases o with
  | skipped =>
    rcases h with h | h | h | ⟨e, h⟩
    · exact Or.inl h
    · exact Or.inr (Or.inl h)
    · exact Or.inr (Or.inr (Or.inl (List.mem_append_left _ h)))
    · exact Or.inr (Or.inr (Or.inr ⟨e, h⟩))
  | created op =>
    cases op <;>
    · rcases h with h | h | h | ⟨e, h⟩
      · exact Or.inl (List.mem_append_left _ h)
      · exact Or.inr (Or.inl h)
      · exact Or.inr (Or.inr (Or.inl h))
      · exact Or.inr (Or.inr (Or.inr ⟨e, by first | exact h | exact List.mem_append_left _ h⟩))
  | overwritten op =>
    cases op <;>
    · rcases h with h | h | h | ⟨e, h⟩
      · exact Or.inl h
      · exact Or.inr (Or.inl (List.mem_append_left _ h))
      · exact Or.inr (Or.inr (Or.inl h))
      · exact Or.inr (Or.inr (Or.inr ⟨e, by first | exact h | exact List.mem_append_left _ h⟩))
  | failed e =>
    rcases h with h | h | h | ⟨e', h⟩
    · exact Or.inl h
    · exact Or.inr (Or.inl h)
    · exact Or.inr (Or.inr (Or.inl h))
    · exact Or.inr (Or.inr (Or.inr ⟨e', List.mem_append_left _ h⟩))

theorem addOutcome_self (acc : GenResult) (p : String) (o : PathOutcome) :
    inSomeBucket (addOutcome acc p o) p := by
  cases o with
  | skipped =>
    exact Or.inr (Or.inr (Or.inl (List.mem_append_right _ (List.mem_singleton_self _))))
  | created op =>
    cases op <;>
      exact Or.inl (List.mem_append_right _ (List.mem_singleton_self _))
  | overwritten op =>
    cases op <;>
      exact Or.inr (Or.inl (List.mem_append_right _ (List.mem_singleton_self _)))
  | failed e =>
    exact Or.inr (Or.inr (Or.inr ⟨e, List.mem_append_right _ (List.mem_singleton_self _)⟩))

theorem processOnePath_penalty (fs : FsOps) (chat : String → Except String String)
    (extractCode : String → Option String) (finalPrompt : String)
    (overwriteAll : Bool) (p : String) (h : fs.openDoc p = .ok ()) :
    openPenalty (processOnePath fs chat extractCode finalPrompt overwriteAll p) = 0 := by
  unfold processOnePath
  cases fs.ensureParentDir p with
  | error e => rfl
  | ok u =>
    show openPenalty
      (if fs.statX p && !overwriteAll then .skipped
       else
        match fs.writeFile p
            (requestFileContentForPrompt (chat p) extractCode finalPrompt p) with
        | .error e => .failed e
        | .ok _ =>
          if fs.statX p then .overwritten (openOutcome fs p)
          else .created (openOutcome fs p)) = 0
    by_cases hskip : (fs.statX p && !overwriteAll) = true
    · rw [if_pos hskip]
      rfl
    · rw [if_neg hskip]
      cases fs.writeFile p
          (requestFileContentForPrompt (chat p) extractCode finalPrompt p) with
      | error e => rfl
      | ok u2 =>
        have ho : openOutcome fs p = none := by
          unfold openOutcome
          rw [h]
        show openPenalty
          (if fs.statX p then .overwritten (openOutcome fs p)
           else .created (openOutcome fs p)) = 0
        rw [ho]
        cases fs.statX p <;> rfl

theorem genFold_spec (fs : FsOps) (chat : String → Except String String)
    (extractCode : String → Option String) (finalPrompt : String)
    (overwriteAll : Bool) :
    ∀ (paths : List String) (acc : GenResult),
      (∀ q, inSomeBucket acc q →
        inSomeBucket (paths.foldl
          (fun acc p => addOutcome acc p
            (processOnePath fs chat extractCode finalPrompt overwriteAll p)) acc) q)
      ∧ (∀ p ∈ paths,
        inSomeBucket (paths.foldl
          (fun acc p => addOutcome acc p
            (processOnePath fs chat extractCode finalPrompt overwriteAll p)) acc) p)
      ∧ bucketCount acc + paths.length ≤ bucketCount (paths.foldl
          (fun acc p => addOutcome acc p
            (processOnePath fs chat extractCode finalPrompt overwriteAll p)) acc)
      ∧ ((∀ p ∈ paths, fs.openDoc p = .ok ()) →
        bucketCount (paths.foldl
          (fun acc p => addOutcome acc p
            (processOnePath fs chat extractCode finalPrompt overwriteAll p)) acc) =
          bucketCount acc + paths.length) := by
  intro paths
  induction paths with
  | nil =>
    intro acc
    exact ⟨fun q h => h, by simp, by simp, fun _ => by simp⟩
  | cons p rest ih =>
    intro acc
    simp only [List.foldl_cons, List.length_cons]
    refine ⟨?_, ?_, ?_, ?_⟩
    · intro q hq
      exact (ih _).1 q (addOutcome_mono _ _ _ _ hq)
    · intro x hx
      rcases List.mem_cons.mp hx with rfl | hx
      · exact (ih _).1 x (addOutcome_self _ _ _)
      · exact (ih _).2.1 x hx
    · have h1 := (ih (addOutcome acc p
        (processOnePath fs chat extractCode finalPrompt overwriteAll p))).2.2.1
      rw [addOutcome_count] at h1
      omega
    · intro hopen
      have h1 := (ih (addOutcome acc p
        (processOnePath fs chat extractCode finalPrompt overwriteAll p))).2.2.2
        (fun x hx => hopen x (List.mem_cons_of_mem _ hx))
      rw [addOutcome_count,
        processOnePath_penalty fs chat extractCode finalPrompt overwriteAll p
          (hopen p (List.mem_cons_self _ _))] at h1
      omega

/-- C3 (amended): every path given to the orchestrator lands in at least one
of the four buckets and a failure on one path never prevents the processing
of the others; the total number of bucket entries equals the number of paths
— one bucket per path — except that a failing post-write editor open adds a
second, `failed`, entry for an already created/overwritten path. -/
theorem generateFiles_buckets_spec :
    ∀ (fs : FsOps) (chat : String → Except String String)
      (extractCode : String → Option String) (finalPrompt : String)
      (filePaths : List String) (overwriteAll : Bool),
      (∀ p ∈ filePaths,
        inSomeBucket
          (generateFilesFromPrompt fs chat extractCode finalPrompt filePaths overwriteAll) p)
      ∧ filePaths.length ≤ bucketCount
          (generateFilesFromPrompt fs chat extractCode finalPrompt filePaths overwriteAll)
      ∧ ((∀ p ∈ filePaths, fs.openDoc p = .ok ()) →
        bucketCount
          (generateFilesFromPrompt fs chat extractCode finalPrompt filePaths overwriteAll) =
          filePaths.length) := by
  intro fs chat extractCode finalPrompt filePaths overwriteAll
  have h := genFold_spec fs chat extractCode finalPrompt overwriteAll filePaths ⟨[], [], [], []⟩
  have hc : bucketCount ⟨[], [], [], []⟩ = 0 := rfl
  refine ⟨h.2.1, ?_, fun hopen => ?_⟩
  · have := h.2.2.1
    rw [hc] at this
    simpa [generateFilesFromPrompt] using this
  · have := h.2.2.2 hopen
    rw [hc] at this
    simpa [generateFilesFromPrompt] using this

/-- Witness for `generateFiles_buckets_spec`: with oracles that never fail,
two paths produce exactly two bucket entries. -/
theorem generateFiles_buckets_spec_witness :
    bucketCount
      (generateFilesFromPrompt
        ⟨fun _ => .ok (), fun _ => false, fun _ _ => .ok (), fun _ => .ok ()⟩
        (fun _ => .ok "body") (fun _ => none) "prompt" ["a.txt", "b.txt"] false) = 2 :=
  (generateFiles_buckets_spec
    ⟨fun _ => .ok (), fun _ => false, fun _ _ => .ok (), fun _ => .ok ()⟩
    (fun _ => .ok "body") (fun _ => none) "prompt" ["a.txt", "b.txt"] false).2.2
    (fun _ _ => rfl)

/-- Counterexample to C3 as stated: when the write succeeds but opening the
written document fails, the path lands in `created` *and* in `failed`, so it
does not end up in exactly one bucket. -/
theorem generateFiles_open_failure_double_bucket :
    generateFilesFromPrompt
      ⟨fun _ => .ok (), fun _ => false, fun _ _ => .ok (), fun _ => .error "boom"⟩
      (fun _ => .ok "body") (fun _ => none) "prompt" ["a.txt"] false =
      ⟨["a.txt"], [], [], [("a.txt", "เปิดไฟล์ไม่สำเร็จ: boom")]⟩ := rfl

/-- C4 (amended): when the per-file content call fails, deterministic
fallback content is substituted and the write is still attempted, so the
path is written (created/overwritten) unless that write fails, in which case
the write's error is the recorded failure; an outcome is `failed` only when
parent-directory creation or the write failed, and the extra created-and-
failed combination occurs only when the post-write editor open failed. -/
theorem processOnePath_fallback_spec :
    ∀ (fs : FsOps) (chat : String → Except String String)
      (extractCode : String → Option String) (finalPrompt : String)
      (overwriteAll : Bool) (p : String),
      (isErr (chat p) = true →
        requestFileContentForPrompt (chat p) extractCode finalPrompt p =
          fallbackHeader finalPrompt p)
      ∧ (fs.ensureParentDir p = .ok () →
          (fs.statX p && !overwriteAll) = false →
          isErr (chat p) = true →
          (fs.writeFile p (fallbackHeader finalPrompt p) = .ok () →
            isWritten (processOnePath fs chat extractCode finalPrompt overwriteAll p) = true)
          ∧ (∀ e, fs.writeFile p (fallbackHeader finalPrompt p) = .error e →
              processOnePath fs chat extractCode finalPrompt overwriteAll p = .failed e))
      ∧ (∀ e, processOnePath fs chat extractCode finalPrompt overwriteAll p = .failed e →
          fs.ensureParentDir p = .error e ∨
            fs.writeFile p
              (requestFileContentForPrompt (chat p) extractCode finalPrompt p) = .error e)
      ∧ (∀ m,
          (processOnePath fs chat extractCode finalPrompt overwriteAll p = .created (some m) ∨
            processOnePath fs chat extractCode finalPrompt overwriteAll p =
              .overwritten (some m)) →
          isErr (fs.openDoc p) = true) := by
  intro fs chat extractCode finalPrompt overwriteAll p
  have hfb : isErr (chat p) = true →
      requestFileContentForPrompt (chat p) extractCode finalPrompt p =
        fallbackHeader finalPrompt p := by
    intro hc
    unfold requestFileContentForPrompt
    cases hcp : chat p with
    | ok content => rw [hcp] at hc; cases hc
    | error e => rfl
  refine ⟨hfb, fun hens hskip hc => ?_, fun e hfail => ?_, fun m hcm => ?_⟩
  · have hcontent := hfb hc
    unfold processOnePath
    rw [hens, hcontent]
    show (fs.writeFile p (fallbackHeader finalPrompt p) = .ok () →
        isWritten
          (if fs.statX p && !overwriteAll then PathOutcome.skipped
           else
            match fs.writeFile p (fallbackHeader finalPrompt p) with
            | .error e => PathOutcome.failed e
            | .ok _ =>
              if fs.statX p then PathOutcome.overwritten (openOutcome fs p)
              else PathOutcome.created (openOutcome fs p)) = true)
      ∧ (∀ e, fs.writeFile p (fallbackHeader finalPrompt p) = .error e →
          (if fs.statX p && !overwriteAll then PathOutcome.skipped
           else
            match fs.writeFile p (fallbackHeader finalPrompt p) with
            | .error e => PathOutcome.failed e
            | .ok _ =>
              if fs.statX p then PathOutcome.overwritten (openOutcome fs p)
              else PathOutcome.created (openOutcome fs p)) = PathOutcome.failed e)
    rw [if_neg (by rw [hskip]; exact Bool.false_ne_true)]
    constructor
    · intro hw
      rw [hw]
      cases fs.statX p <;> rfl
    · intro e hw
      rw [hw]
  · unfold processOnePath at hfail
    cases hens : fs.ensureParentDir p with
    | error e' =>
      rw [hens] at hfail
      cases hfail
      exact Or.inl rfl
    | ok u =>
      cases u
      rw [hens] at hfail
      rw [show (match (Except.ok () : Except String Unit) with
          | .error e => PathOutcome.failed e
          | .ok _ =>
            (if fs.statX p && !overwriteAll then PathOutcome.skipped
             else
              match fs.writeFile p
                  (requestFileContentForPrompt (chat p) extractCode finalPrompt p) with
              | .error e => PathOutcome.failed e
              | .ok _ =>
                if fs.statX p then PathOutcome.overwritten (openOutcome fs p)
                else PathOutcome.created (openOutcome fs p))) =
          (if fs.statX p && !overwriteAll then PathOutcome.skipped
           else
            match fs.writeFile p
                (requestFileContentForPrompt (chat p) extractCode finalPrompt p) with
            | .error e => PathOutcome.failed e
            | .ok _ =>
              if fs.statX p then PathOutcome.overwritten (openOutcome fs p)
              else PathOutcome.created (openOutcome fs p)) from rfl] at hfail
      by_cases hskip : (fs.statX p && !overwriteAll) = true
      · rw [if_pos hskip] at hfail
        cases hfail
      · rw [if_neg hskip] at hfail
        cases hw : fs.writeFile p
            (requestFileContentForPrompt (chat p) extractCode finalPrompt p) with
        | error e' =>
          rw [hw] at hfail
          cases hfail
          exact Or.inr rfl
        | ok u2 =>
          cases u2
          rw [hw] at hfail
          rw [show (match (Except.ok () : Except String Unit) with
              | .error e => PathOutcome.failed e
              | .ok _ =>
                if fs.statX p then PathOutcome.overwritten (openOutcome fs p)
                else PathOutcome.created (openOutcome fs p)) =
              (if fs.statX p then PathOutcome.overwritten (openOutcome fs p)
               else PathOutcome.created (openOutcome fs p)) from rfl] at hfail
          cases hst : fs.statX p
          · rw [hst, if_neg Bool.false_ne_true] at hfail
            cases hfail
          · rw [hst, if_pos rfl] at hfail
            cases hfail
  · have hopen : openOutcome fs p = some m → isErr (fs.openDoc p) = true := by
      intro ho
      unfold openOutcome at ho
      cases hod : fs.openDoc p with
      | ok u => rw [hod] at ho; cases ho
      | error e => rfl
    unfold processOnePath at hcm
    cases hens : fs.ensureParentDir p with
    | error e' =>
      rw [hens] at hcm
      rcases hcm with hcm | hcm <;> cases hcm
    | ok u =>
      cases u
      rw [hens] at hcm
      by_cases hskip : (fs.statX p && !overwriteAll) = true
      · rw [show (match (Except.ok () : Except String Unit) with
            | .error e => PathOutcome.failed e
            | .ok _ =>
              (if fs.statX p && !overwriteAll then PathOutcome.skipped
               else
                match fs.writeFile p
                    (requestFileContentForPrompt (chat p) extractCode finalPrompt p) with
                | .error e => PathOutcome.failed e
                | .ok _ =>
                  if fs.statX p then PathOutcome.overwritten (openOutcome fs p)
                  else PathOutcome.created (openOutcome fs p))) = PathOutcome.skipped by
          rw [show (match (Except.ok () : Except String Unit) with
          | .error e => PathOutcome.failed e
          | .ok _ =>
            (if fs.statX p && !overwriteAll then PathOutcome.skipped
             else
              match fs.writeFile p
                  (requestFileContentForPrompt (chat p) extractCode finalPrompt p) with
              | .error e => PathOutcome.failed e
              | .ok _ =>
                if fs.statX p then PathOutcome.overwritten (openOutcome fs p)
                else PathOutcome.created (openOutcome fs p))) =
            (if fs.statX p && !overwriteAll then PathOutcome.skipped
             else
              match fs.writeFile p
                  (requestFileContentForPrompt (chat p) extractCode finalPrompt p) with
              | .error e => PathOutcome.failed e
              | .ok _ =>
                if fs.statX p then PathOutcome.overwritten (openOutcome fs p)
                else PathOutcome.created (openOutcome fs p)) from rfl]
          rw [if_pos hskip]] at hcm
        rcases hcm with hcm | hcm <;> cases hcm
      · rw [show (match (Except.ok () : Except String Unit) with
            | .error e => PathOutcome.failed e
            | .ok _ =>
              (if fs.statX p && !overwriteAll then PathOutcome.skipped
               else
                match fs.writeFile p
                    (requestFileContentForPrompt (chat p) extractCode finalPrompt p) with
                | .error e => PathOutcome.failed e
                | .ok _ =>
                  if fs.statX p then PathOutcome.overwritten (openOutcome fs p)
                  else PathOutcome.created (openOutcome fs p))) =
            (if fs.statX p && !overwriteAll then PathOutcome.skipped
             else
              match fs.writeFile p
                  (requestFileContentForPrompt (chat p) extractCode finalPrompt p) with
              | .error e => PathOutcome.failed e
              | .ok _ =>
                if fs.statX p then PathOutcome.overwritten (openOutcome fs p)
                else PathOutcome.created (openOutcome fs p)) from rfl, if_neg hskip] at hcm
        cases hw : fs.writeFile p
            (requestFileContentForPrompt (chat p) extractCode finalPrompt p) with
        | error e' =>
          rw [hw] at hcm
          rcases hcm with hcm | hcm <;> cases hcm
        | ok u2 =>
          cases u2
          rw [hw] at hcm
          rw [show (match (Except.ok () : Except String Unit) with
              | .error e => PathOutcome.failed e
              | .ok _ =>
                if fs.statX p then PathOutcome.overwritten (openOutcome fs p)
                else PathOutcome.created (openOutcome fs p)) =
              (if fs.statX p then PathOutcome.overwritten (openOutcome fs p)
               else PathOutcome.created (openOutcome fs p)) from rfl] at hcm
          cases hst : fs.statX p
          · rw [hst] at hcm
            rw [if_neg (by exact Bool.false_ne_true)] at hcm
            rcases hcm with hcm | hcm
            · exact hopen (PathOutcome.created.inj hcm)
            · cases hcm
          · rw [hst] at hcm
            rw [if_pos rfl] at hcm
            rcases hcm with hcm | hcm
            · cases hcm
            · exact hopen (PathOutcome.overwritten.inj hcm)

/-- Witness for `processOnePath_fallback_spec`: with a failing content call
and healthy filesystem oracles the path is still written. -/
theorem processOnePath_fallback_spec_witness :
    isWritten (processOnePath
      ⟨fun _ => .ok (), fun _ => false, fun _ _ => .ok (), fun _ => .ok ()⟩
      (fun _ => .error "api down") (fun _ => none) "prompt" false "f.js") = true :=
  ((processOnePath_fallback_spec
    ⟨fun _ => .ok (), fun _ => false, fun _ _ => .ok (), fun _ => .ok ()⟩
    (fun _ => .error "api down") (fun _ => none) "prompt" false "f.js").2.1
    rfl rfl rfl).1 rfl

/-- Counterexample to C4 as stated: when creating the parent directory
fails, the path lands in `failed` even though the write oracle cannot fail
and is never reached (and is hence not bucketed created/overwritten). -/
theorem generateFiles_mkdir_failure_not_write :
    generateFilesFromPrompt
      ⟨fun _ => .error "mkdir denied", fun _ => false, fun _ _ => .ok (), fun _ => .ok ()⟩
      (fun _ => .error "api down") (fun _ => none) "prompt" ["a/b.js"] false =
      ⟨[], [], [], [("a/b.js", "mkdir denied")]⟩ := rfl

/-! ## Placeholder Scanner and Token Resolver (`promptUtils.js`)

The four token regexes and the combined fill regex are hand-compiled into
deterministic matchers.  For each regex the backtracking behaviour collapses
as follows: the options region `[^}|]+(?:\s*,\s*[^}|]+)+` (resp. the
`[^{}:|]` variant) together with its surrounding `\s*` matches exactly the
characters up to the first stop character, and succeeds iff that region
contains a comma that is neither its first nor its last character; the
optional default `(?:\|\s*([^}]+?))?` followed by `\s*\}\}` succeeds iff the
character at the stop position is `}}`, or `|` followed by at least one
non-`}` character and then `}}`; surrounding whitespace absorbed by greedy
or lazy `\s*` only changes the captures by whitespace that the source
`trim()`s away. -/

/-- Stop characters of the `[^}|]` options region (named/radio/ai). -/
def isStopA (c : Char) : Bool :=
  c = '\x7d' || c = '|'

/-- Stop characters of the `[^{}:|]` options region (anonymous). -/
def isStopB (c : Char) : Bool :=
  c = '\x7b' || c = '\x7d' || c = ':' || c = '|'

/-- The options region matches iff it has a comma that is internal (neither
first nor last character). -/
def internalComma (w : List Char) : Bool :=
  ((w.drop 1).dropLast).contains ','

/-- The `(?:\|\s*([^}]+?))?\s*\}\}` ending at the first stop position:
returns the trimmed default capture and the rest after the closing braces. -/
def matchEnding (t1 : List Char) : Option (Option String × List Char) :=
  match t1 with
  | '\x7d' :: '\x7d' :: r => some (none, r)
  | '|' :: r =>
    let d := r.takeWhile (fun c => c ≠ '\x7d')
    if d.isEmpty then none
    else
      match r.drop d.length with
      | '\x7d' :: '\x7d' :: r2 => some (some (⟨trimChars d⟩ : String), r2)
      | _ => none
  | _ => none

/-- Options region followed by the common ending, starting right after the
introducing `:` or `|` (or after `{{` for the anonymous form): returns the
trimmed split options, the default and the rest. -/
def matchOptsTail (isStop : Char → Bool) (t : List Char) :
    Option (List String × Option String × List Char) :=
  let w := t.takeWhile (fun c => !(isStop c))
  if internalComma w then
    match matchEnding (t.drop w.length) with
    | some (d, r) =>
      some ((w.splitOn ',').map (fun seg => (⟨trimChars seg⟩ : String)), d, r)
    | none => none
  else none

/-- The `\s*\|\s*([^}|]+)` prompt region of the AI form followed by the
common ending. -/
def matchAiTail (t : List Char) : Option (String × Option String × List Char) :=
  let w := t.takeWhile (fun c => !(isStopA c))
  if w.isEmpty then none
  else
    match matchEnding (t.drop w.length) with
    | some (d, r) => some ((⟨trimChars w⟩ : String), d, r)
    | none => none

/-- Strip an exact literal prefix. -/
def dropLit : List Char → List Char → Option (List Char)
  | [], t => some t
  | _ :: _, [] => none
  | c :: cs, d :: ds => if c = d then dropLit cs ds else none

/-- `/\{\{\s*([\w.-]+)\s*:\s*([^}|]+(?:\s*,\s*[^}|]+)+)\s*(?:\|\s*([^}]+?))?\s*\}\}/`
at the head of `s`: length, name, options, default. -/
def matchNamedAt (s : List Char) : Option (Nat × String × List String × Option String) :=
  match s with
  | '\x7b' :: '\x7b' :: rest =>
    let r1 := rest.dropWhile isWsChar
    let name := r1.takeWhile isWordChar
    if name.isEmpty then none
    else
      match (r1.drop name.length).dropWhile isWsChar with
      | ':' :: r3 =>
        match matchOptsTail isStopA r3 with
        | some (opts, d, r4) => some (s.length - r4.length, ⟨name⟩, opts, d)
        | none => none
      | _ => none
  | _ => none

/-- `/\{\{\s*([^{}:|]+(?:\s*,\s*[^{}:|]+)+)\s*(?:\|\s*([^}]+?))?\s*\}\}/`
at the head of `s`. -/
def matchAnonAt (s : List Char) : Option (Nat × List String × Option String) :=
  match s with
  | '\x7b' :: '\x7b' :: rest =>
    match matchOptsTail isStopB rest with
    | some (opts, d, r4) => some (s.length - r4.length, opts, d)
    | none => none
  | _ => none

/-- `/\{\{\s*radio\s*\|\s*([^}|]+(?:\s*,\s*[^}|]+)+)\s*(?:\|\s*([^}]+?))?\s*\}\}/`
at the head of `s`. -/
def matchRadioAt (s : List Char) : Option (Nat × List String × Option String) :=
  match s with
  | '\x7b' :: '\x7b' :: rest =>
    match dropLit ['r', 'a', 'd', 'i', 'o'] (rest.dropWhile isWsChar) with
    | none => none
    | some r2 =>
      match r2.dropWhile isWsChar with
      | '|' :: r3 =>
        match matchOptsTail isStopA r3 with
        | some (opts, d, r4) => some (s.length - r4.length, opts, d)
        | none => none
      | _ => none
  | _ => none

/-- `/\{\{\s*ai\s*\|\s*([^}|]+)\s*(?:\|\s*([^}]+?))?\s*\}\}/` at the head
of `s`. -/
def matchAiAt (s : List Char) : Option (Nat × String × Option String) :=
  match s with
  | '\x7b' :: '\x7b' :: rest =>
    match dropLit ['a', 'i'] (rest.dropWhile isWsChar) with
    | none => none
    | some r2 =>
      match r2.dropWhile isWsChar with
      | '|' :: r3 =>
        match matchAiTail r3 with
        | some (p, d, r4) => some (s.length - r4.length, p, d)
        | none => none
      | _ => none
  | _ => none

/-- The combined replacement regex of `fillChoicePlaceholders`: the four
alternatives are tried in order (named, anonymous, radio, ai) with the
shared `\{\{\s*` prefix and `\s*(?:\|\s*[^}]+?)?\s*\}\}` tail; each
alternative-plus-tail coincides with the corresponding standalone matcher. -/
def combinedMatchLen (s : List Char) : Option Nat :=
  match s with
  | '\x7b' :: '\x7b' :: _ =>
    match matchNamedAt s with
    | some (len, _, _, _) => some len
    | none =>
      match matchAnonAt s with
      | some (len, _, _) => some len
      | none =>
        match matchRadioAt s with
        | some (len, _, _) => some len
        | none =>
          match matchAiAt s with
          | some (len, _, _) => some len
          | none => none
  | _ => none

/-- `regex.exec` driven `while` loop: try each start position from left to
right; on a match record `(m.index, length, captures)` and continue at
`lastIndex` (matches are at least two characters, the guard merely serves
termination). -/
def execScan {α : Type} (matchAt : List Char → Option (Nat × α)) :
    Nat → List Char → Nat → List (Nat × Nat × α)
  | 0, _, _ => []
  | _ + 1, [], _ => []
  | fuel + 1, c :: rest, pos =>
    match matchAt (c :: rest) with
    | some (len, a) =>
      if len = 0 then []
      else (pos, len, a) :: execScan matchAt fuel ((c :: rest).drop len) (pos + len)
    | none => execScan matchAt fuel rest (pos + 1)

/-- A token produced by `parseChoicePlaceholders`, together with the match
offset `m.index` (available to the JS code, recorded here so that span
claims can be stated). -/
structure PTok where
  raw : String
  start : Nat
  name : Option String
  options : List String
  dflt : Option String
  type : String
  aiPrompt : Option String
deriving DecidableEq, Repr

/-- JS `template.indexOf(raw)`: offset of the first occurrence. -/
def firstIndexOfAux (pat : List Char) : List Char → Option Nat
  | [] => if pat.isEmpty then some 0 else none
  | c :: rest =>
    if pat.isPrefixOf (c :: rest) then some 0
    else (firstIndexOfAux pat rest).map (· + 1)

/-- The sort key `template.indexOf(t.raw)` (every recorded raw does occur,
so the `-1` case of `indexOf` is unreachable; `0` is a dummy). -/
def rawIndexOf (template raw : List Char) : Nat :=
  (firstIndexOfAux raw template).getD 0

/-- The overlap test of passes 2–4: the candidate span `[start, start+len)`
against `[i, i + t.raw.length)` where `i = template.indexOf(t.raw)` — the
first occurrence of the raw text, not the token's own match offset. -/
def overlapsAny (template : List Char) (toks : List PTok) (start len : Nat) : Bool :=
  toks.any (fun t =>
    match firstIndexOfAux t.raw.data template with
    | some i => !(decide (start + len ≤ i) || decide (start ≥ i + t.raw.data.length))
    | none => false)

def rawAt (template : List Char) (pos len : Nat) : String :=
  ⟨(template.drop pos).take len⟩

/-- The four passes of `parseChoicePlaceholders` in precedence order, each
of the last three dropping candidates that overlap an already-accepted token
(at the first occurrence of its raw text), before the final sort. -/
def parseChoiceUnsorted (templateS : String) : List PTok :=
  let template := templateS.data
  let named := (execScan matchNamedAt template.length template 0).map
    (fun m => (⟨rawAt template m.1 m.2.1, m.1, some m.2.2.1, m.2.2.2.1,
      m.2.2.2.2, "choice", none⟩ : PTok))
  let afterAnon := (execScan matchAnonAt template.length template 0).foldl
    (fun toks m =>
      if overlapsAny template toks m.1 m.2.1 then toks
      else toks ++ [(⟨rawAt template m.1 m.2.1, m.1, none, m.2.2.1,
        m.2.2.2, "choice", none⟩ : PTok)]) named
  let afterRadio := (execScan matchRadioAt template.length template 0).foldl
    (fun toks m =>
      if overlapsAny template toks m.1 m.2.1 then toks
      else toks ++ [(⟨rawAt template m.1 m.2.1, m.1, none, m.2.2.1,
        m.2.2.2, "radio", none⟩ : PTok)]) afterAnon
  let afterAi := (execScan matchAiAt template.length template 0).foldl
    (fun toks m =>
      if overlapsAny template toks m.1 m.2.1 then toks
      else toks ++ [(⟨rawAt template m.1 m.2.1, m.1, none, [m.2.2.1],
        m.2.2.2, "ai", some m.2.2.1⟩ : PTok)]) afterRadio
  afterAi

/-- Stable insertion for `jsStableSort`: an element moves past `y` only
when `y` is strictly smaller, so elements with equal keys keep their input
order. -/
def jsSortInsert {α : Type} (le : α → α → Bool) (x : α) : List α → List α
  | [] => [x]
  | y :: ys => if le y x && !(le x y) then y :: jsSortInsert le x ys else x :: y :: ys

/-- A stable sort (as `Array.prototype.sort` is): stable insertion sort. -/
def jsStableSort {α : Type} (le : α → α → Bool) : List α → List α
  | [] => []
  | x :: xs => jsSortInsert le x (jsStableSort le xs)

/-- `parseChoicePlaceholders` from `promptUtils.js`: the four passes, then
`tokens.sort((a, b) => template.indexOf(a.raw) - template.indexOf(b.raw))`
(a stable sort by the first-occurrence offset of each token's raw text). -/
def parseChoicePlaceholders (templateS : String) : List PTok :=
  jsStableSort
    (fun a b => rawIndexOf templateS.data a.raw.data ≤ rawIndexOf templateS.data b.raw.data)
    (parseChoiceUnsorted templateS)

/-- `/\{\{\s*([^{}:|,]+)\s*\}\}/` at the head of `s`: length and the
capture (the region minus its maximal leading whitespace; when the region is
all whitespace the capture backtracks to its last character). -/
def matchSimpleParseAt (s : List Char) : Option (Nat × String) :=
  match s with
  | '\x7b' :: '\x7b' :: rest =>
    let w := rest.takeWhile
      (fun c => !(c = '\x7b' || c = '\x7d' || c = ':' || c = '|' || c = ','))
    if w.isEmpty then none
    else
      match rest.drop w.length with
      | '\x7d' :: '\x7d' :: r2 =>
        let cap :=
          match w.dropWhile isWsChar with
          | [] => (w.getLast?).elim [] (fun c => [c])
          | cap => cap
        some (s.length - r2.length, (⟨cap⟩ : String))
      | _ => none
  | _ => none

/-- `parsePlaceholders` from `promptUtils.js`: unique simple names in first
occurrence order, skipping the reserved `radio` and `ai`. -/
def parsePlaceholders (templateS : String) : List String :=
  (execScan matchSimpleParseAt templateS.data.length templateS.data 0).foldl
    (fun seen m =>
      if m.2.2 = "radio" || m.2.2 = "ai" || seen.contains m.2.2 then seen
      else seen ++ [m.2.2]) []

/-- `/\{\{\s*([\w.-]+)\s*\}\}/` at the head of `s` (the replacement regex of
`fillPlaceholders`). -/
def matchSimpleFillAt (s : List Char) : Option (Nat × String) :=
  match s with
  | '\x7b' :: '\x7b' :: rest =>
    let r1 := rest.dropWhile isWsChar
    let name := r1.takeWhile isWordChar
    if name.isEmpty then none
    else
      match (r1.drop name.length).dropWhile isWsChar with
      | '\x7d' :: '\x7d' :: r2 => some (s.length - r2.length, (⟨name⟩ : String))
      | _ => none
  | _ => none

/-- `template.replace(re, cb)`: scan left to right, copy unmatched
characters, replace each match by the callback result (which is not
rescanned). -/
def replaceSimple (values : String → Option String) :
    Nat → List Char → List Char
  | 0, s => s
  | _ + 1, [] => []
  | fuel + 1, c :: rest =>
    match matchSimpleFillAt (c :: rest) with
    | some (len, name) =>
      if len = 0 then c :: replaceSimple values fuel rest
      else
        (match values name with
          | some v => v.data
          | none => []) ++
          replaceSimple values fuel ((c :: rest).drop len)
    | none => c :: replaceSimple values fuel rest

/-- `fillPlaceholders` from `promptUtils.js`: `{{name}}` replaced by
`values[name]` when the key is present, else by the empty string. -/
def fillPlaceholders (template : String) (values : String → Option String) : String :=
  ⟨replaceSimple values template.data.length template.data⟩

/-- The single replacement pass of `fillChoicePlaceholders`, with the
running match counter `i`. -/
def replaceChoice (sel : Nat → String) :
    Nat → List Char → Nat → List Char
  | 0, s, _ => s
  | _ + 1, [], _ => []
  | fuel + 1, c :: rest, i =>
    match combinedMatchLen (c :: rest) with
    | some len =>
      if len = 0 then c :: replaceChoice sel fuel rest i
      else (sel i).data ++ replaceChoice sel fuel ((c :: rest).drop len) (i + 1)
    | none => c :: replaceChoice sel fuel rest i

/-- `fillChoicePlaceholders` from `promptUtils.js`: an empty (or missing)
selection list returns the template unchanged; otherwise each match of the
combined regex is replaced, left to right, by the next selection, `''` once
the selections run out. -/
def fillChoicePlaceholders (template : String) (selectedValues : List String) : String :=
  if selectedValues.isEmpty then template
  else
    ⟨replaceChoice (fun i => ((selectedValues.get? i).getD ""))
      template.data.length template.data 0⟩

/-! ## Claims C7 and C8: the Choice Filler and the Scanner ordering -/

theorem replaceChoice_congr (sel1 sel2 : Nat → String) (hsel : ∀ i, sel1 i = sel2 i) :
    ∀ (fuel : Nat) (s : List Char) (i : Nat),
      replaceChoice sel1 fuel s i = replaceChoice sel2 fuel s i := by
  intro fuel
  induction fuel with
  | zero => intro s i; rfl
  | succ fuel ih =>
    intro s i
    cases s with
    | nil => rfl
    | cons c rest =>
      show (match combinedMatchLen (c :: rest) with
        | some len =>
          if len = 0 then c :: replaceChoice sel1 fuel rest i
          else (sel1 i).data ++ replaceChoice sel1 fuel ((c :: rest).drop len) (i + 1)
        | none => c :: replaceChoice sel1 fuel rest i) =
        (match combinedMatchLen (c :: rest) with
        | some len =>
          if len = 0 then c :: replaceChoice sel2 fuel rest i
          else (sel2 i).data ++ replaceChoice sel2 fuel ((c :: rest).drop len) (i + 1)
        | none => c :: replaceChoice sel2 fuel rest i)
      cases combinedMatchLen (c :: rest) with
      | none => rw [ih rest i]
      | some len =>
        by_cases hlen : len = 0
        · simp only [if_pos hlen]
          rw [ih rest i]
        · simp only [if_neg hlen]
          rw [hsel i, ih ((c :: rest).drop len) (i + 1)]

theorem replicate_get?_pad (m i : Nat) :
    (((List.replicate m "") : List String).get? i).getD "" = "" := by
  induction m generalizing i with
  | zero => cases i <;> rfl
  | succ m ih =>
    cases i with
    | zero => rfl
    | succ i => exact ih i

theorem get?_pad (sels : List String) (m i : Nat) :
    ((sels ++ List.replicate m "").get? i).getD "" = (sels.get? i).getD "" := by
  induction sels generalizing i with
  | nil =>
    simp only [List.nil_append]
    rw [replicate_get?_pad]
    cases i <;> rfl
  | cons a sels ih =>
    cases i with
    | zero => rfl
    | succ i => exact ih i

/-- C7 (amended): for every nonempty selections list, selections past its
end are treated as the empty string (padding the list with empty strings
never changes the result), not as the token's declared default — in the
two-token example with one selection the second token becomes empty, not its
default `f`; the empty selections list, however, returns the template
unchanged (see the counterexample). -/
theorem fillChoicePlaceholders_shortfall_spec :
    (∀ (template : String) (sels : List String) (m : Nat), sels ≠ [] →
      fillChoicePlaceholders template (sels ++ List.replicate m "") =
        fillChoicePlaceholders template sels)
    ∧ fillChoicePlaceholders "\x7b\x7ba,b|c\x7d\x7d\x7b\x7bd,e|f\x7d\x7d" ["x"] = "x" := by
  refine ⟨fun template sels m hne => ?_, rfl⟩
  have h1 : (sels ++ List.replicate m "").isEmpty = false := by
    cases sels with
    | nil => exact absurd rfl hne
    | cons a l => rfl
  have h2 : sels.isEmpty = false := by
    cases sels with
    | nil => exact absurd rfl hne
    | cons a l => rfl
  unfold fillChoicePlaceholders
  rw [h1, h2]
  simp only [Bool.false_eq_true, if_false]
  have := replaceChoice_congr
    (fun i => (((sels ++ List.replicate m "").get? i).getD ""))
    (fun i => ((sels.get? i).getD ""))
    (fun i => get?_pad sels m i)
    template.data.length template.data 0
  rw [this]

/-- Witness for `fillChoicePlaceholders_shortfall_spec`: padding a single
selection with two empty strings gives the same result. -/
theorem fillChoicePlaceholders_shortfall_spec_witness :
    fillChoicePlaceholders "\x7b\x7ba,b|c\x7d\x7d\x7b\x7bd,e|f\x7d\x7d"
      (["x"] ++ List.replicate 2 "") =
      fillChoicePlaceholders "\x7b\x7ba,b|c\x7d\x7d\x7b\x7bd,e|f\x7d\x7d" ["x"] :=
  fillChoicePlaceholders_shortfall_spec.1
    "\x7b\x7ba,b|c\x7d\x7d\x7b\x7bd,e|f\x7d\x7d" ["x"] 2 (by decide)

/-- Counterexample to C7 as stated: for the empty selections list the Choice
Filler returns the template unchanged — the token is not replaced with the
empty string (and not with its declared default either). -/
theorem fillChoicePlaceholders_empty_unchanged :
    fillChoicePlaceholders "\x7b\x7ba,b|c\x7d\x7d" [] = "\x7b\x7ba,b|c\x7d\x7d"
    ∧ (parseChoicePlaceholders "\x7b\x7ba,b|c\x7d\x7d").length = 1
    ∧ fillChoicePlaceholders "\x7b\x7ba,b|c\x7d\x7d" [] ≠ "" := by
  exact ⟨rfl, by decide, by decide⟩

theorem mem_jsSortInsert {α : Type} (le : α → α → Bool) (x z : α) :
    ∀ l : List α, z ∈ jsSortInsert le x l ↔ z = x ∨ z ∈ l := by
  intro l
  induction l with
  | nil => simp [jsSortInsert]
  | cons y ys ih =>
    rw [jsSortInsert]
    by_cases hc : (le y x && !(le x y)) = true
    · rw [if_pos hc]
      simp only [List.mem_cons, ih]
      tauto
    · rw [if_neg hc]
      simp only [List.mem_cons]

theorem jsSortInsert_pairwise {α : Type} (le : α → α → Bool)
    (htotal : ∀ a b, (le a b || le b a) = true)
    (htrans : ∀ a b c, le a b = true → le b c = true → le a c = true)
    (x : α) :
    ∀ l : List α, List.Pairwise (fun a b => le a b = true) l →
      List.Pairwise (fun a b => le a b = true) (jsSortInsert le x l) := by
  intro l
  induction l with
  | nil => intro _; simp [jsSortInsert]
  | cons y ys ih =>
    intro h
    rcases List.pairwise_cons.mp h with ⟨hy, hys⟩
    rw [jsSortInsert]
    by_cases hc : (le y x && !(le x y)) = true
    · rw [if_pos hc]
      have hyx : le y x = true := by
        cases hyxv : le y x with
        | true => rfl
        | false =>
          rw [hyxv] at hc
          simp at hc
      refine List.pairwise_cons.mpr ⟨?_, ih hys⟩
      intro z hz
      rcases (mem_jsSortInsert le x z ys).mp hz with rfl | hz
      · exact hyx
      · exact hy z hz
    · rw [if_neg hc]
      have hxy : le x y = true := by
        cases hxyv : le x y with
        | true => rfl
        | false =>
          cases hyxv : le y x with
          | true =>
            rw [hyxv, hxyv] at hc
            simp at hc
          | false =>
            have hh := htotal y x
            rw [hyxv, hxyv] at hh
            exact absurd hh (by decide)
      refine List.pairwise_cons.mpr ⟨?_, h⟩
      intro z hz
      rcases List.mem_cons.mp hz with rfl | hz
      · exact hxy
      · exact htrans x y z hxy (hy z hz)

theorem jsStableSort_pairwise {α : Type} (le : α → α → Bool)
    (htotal : ∀ a b, (le a b || le b a) = true)
    (htrans : ∀ a b c, le a b = true → le b c = true → le a c = true) :
    ∀ l : List α, List.Pairwise (fun a b => le a b = true) (jsStableSort le l) := by
  intro l
  induction l with
  | nil => simp [jsStableSort]
  | cons x xs ih => exact jsSortInsert_pairwise le htotal htrans x _ ih

/-- C8 (amended): the scanner's output is ordered by the key the code sorts
by — `template.indexOf(token.raw)`, the offset of the *first occurrence of
the token's raw text*, not the token's own match offset — and the overlap
test of the later passes likewise uses that first occurrence; when every raw
text occurs once the two notions agree (the concrete cross-category example
interleaves an `ai` and a named token by offset), but duplicated raw text
makes accepted spans overlap and the output leave actual match order (see
the counterexample). -/
theorem parseChoicePlaceholders_order_spec :
    (∀ template : String,
      List.Pairwise
        (fun a b => rawIndexOf template.data a.raw.data ≤
          rawIndexOf template.data b.raw.data)
        (parseChoicePlaceholders template))
    ∧ (parseChoicePlaceholders "\x7b\x7bai|p\x7d\x7d \x7b\x7ba:x,y\x7d\x7d").map
        (fun t => (t.start, t.type)) = [(0, "ai"), (9, "choice")] := by
  refine ⟨fun template => ?_, by decide⟩
  have h := jsStableSort_pairwise
    (fun a b => rawIndexOf template.data a.raw.data ≤ rawIndexOf template.data b.raw.data)
    (fun a b => by simpa using Nat.le_total _ _)
    (fun a b c hab hbc => by
      simp only [decide_eq_true_eq] at hab hbc ⊢
      exact le_trans hab hbc)
    (parseChoiceUnsorted template)
  unfold parseChoicePlaceholders
  exact h.imp (fun hab => by simpa using hab)

/-- Counterexample to C8 as stated: in
`{{a:b,{{c,d}}{{a:b,{{c,d}}` the second accepted named token (span
`[13, 26)`) and the accepted anonymous token (span `[19, 26)`) overlap —
the overlap test compared the candidate against the *first* occurrence
(offset 0) of the duplicated raw text; and in `{{x,y}} {{a:b,c}} {{x,y}}`
the output match offsets are `[0, 18, 8]`, not ordered by the tokens' own
offsets. -/
theorem parseChoicePlaceholders_overlap_counterexample :
    (parseChoicePlaceholders "\x7b\x7ba:b,\x7b\x7bc,d\x7d\x7d\x7b\x7ba:b,\x7b\x7bc,d\x7d\x7d").map
      (fun t => (t.start, t.raw.data.length)) = [(0, 13), (13, 13), (19, 7)]
    ∧ (13 < 19 + 7 ∧ 19 < 13 + 13)
    ∧ (parseChoicePlaceholders "\x7b\x7bx,y\x7d\x7d \x7b\x7ba:b,c\x7d\x7d \x7b\x7bx,y\x7d\x7d").map
        (fun t => t.start) = [0, 18, 8]
    ∧ ¬(18 ≤ 8) := by
  exact ⟨by decide, by decide, by decide, by decide⟩

/-! ## Claim C6: complete resolution leaves no `{{`

The guarantee is proved for templates assembled from brace-free literal
text and canonically rendered tokens whose names, options, prompts and
defaults are nonempty strings of word characters (`[\w.-]`), with at least
two options per choice/radio token — and refuted in general by the
counterexample below (a simple token whose name falls outside `[\w.-]`). -/

inductive TPart where
  | lit (s : String)
  | simple (name : String)
  | namedTok (name : String) (opts : List String) (dflt : Option String)
  | anonTok (opts : List String) (dflt : Option String)
  | radioTok (opts : List String) (dflt : Option String)
  | aiTok (prompt : String) (dflt : Option String)
deriving DecidableEq, Repr

/-- Options joined by `,` as they appear in a canonical token. -/
def joinOpts : List String → List Char
  | [] => []
  | [o] => o.data
  | o :: rest => o.data ++ ',' :: joinOpts rest

def renderDflt : Option String → List Char
  | none => []
  | some d => '|' :: d.data

def renderPart : TPart → List Char
  | .lit s => s.data
  | .simple n => '\x7b' :: '\x7b' :: (n.data ++ ['\x7d', '\x7d'])
  | .namedTok n opts d =>
    '\x7b' :: '\x7b' :: (n.data ++ ':' :: (joinOpts opts ++ renderDflt d ++ ['\x7d', '\x7d']))
  | .anonTok opts d =>
    '\x7b' :: '\x7b' :: (joinOpts opts ++ renderDflt d ++ ['\x7d', '\x7d'])
  | .radioTok opts d =>
    '\x7b' :: '\x7b' :: ('r' :: 'a' :: 'd' :: 'i' :: 'o' :: '|' ::
      (joinOpts opts ++ renderDflt d ++ ['\x7d', '\x7d']))
  | .aiTok p d =>
    '\x7b' :: '\x7b' :: ('a' :: 'i' :: '|' ::
      (p.data ++ renderDflt d ++ ['\x7d', '\x7d']))

def renderTemplate : List TPart → List Char
  | [] => []
  | part :: rest => renderPart part ++ renderTemplate rest

/-- Nonempty and all word characters. -/
def wordStr (s : String) : Bool :=
  !s.data.isEmpty && s.data.all isWordChar

def optsOk (opts : List String) : Bool :=
  decide (2 ≤ opts.length) && opts.all wordStr

def dfltOk : Option String → Bool
  | none => true
  | some d => wordStr d

def partOk : TPart → Bool
  | .lit s => s.data.all (fun c => c ≠ '\x7b' && c ≠ '\x7d')
  | .simple n => wordStr n && n ≠ "radio" && n ≠ "ai"
  | .namedTok n opts d => wordStr n && optsOk opts && dfltOk d
  | .anonTok opts d => optsOk opts && dfltOk d
  | .radioTok opts d => optsOk opts && dfltOk d
  | .aiTok p d => wordStr p && dfltOk d

/-- Is the part consumed by the Choice Filler? -/
def isChoicePart : TPart → Bool
  | .lit _ => false
  | .simple _ => false
  | _ => true

def countChoice (parts : List TPart) : Nat :=
  (parts.filter isChoicePart).length

def simpleNames : List TPart → List String
  | [] => []
  | .simple n :: rest => n :: simpleNames rest
  | _ :: rest => simpleNames rest

/-- The result of the Choice Filler on a canonical template: choice parts
replaced, in order, by the selections. -/
def substChoices (sel : Nat → String) : List TPart → Nat → List TPart
  | [], _ => []
  | p :: rest, i =>
    if isChoicePart p then .lit (sel i) :: substChoices sel rest (i + 1)
    else p :: substChoices sel rest i

/-- The result of the Simple Filler on a literal/simple template. -/
def outputSimple (vals : String → Option String) : List TPart → List Char
  | [] => []
  | .lit s :: rest => s.data ++ outputSimple vals rest
  | .simple n :: rest => ((vals n).getD "").data ++ outputSimple vals rest
  | _ :: rest => outputSimple vals rest

def hasDoubleBraceAux : List Char → Bool
  | '\x7b' :: '\x7b' :: _ => true
  | _ :: rest => hasDoubleBraceAux rest
  | [] => false

/-- Does the string still contain `{{`? -/
def hasDoubleBrace (s : String) : Bool :=
  hasDoubleBraceAux s.data

/-! Character-class facts and blocked-run lemmas. -/

theorem wordChar_spec (c : Char) (h : isWordChar c = true) :
    isWsChar c = false ∧ c ≠ '\x7b' ∧ c ≠ '\x7d' ∧ c ≠ ':' ∧ c ≠ '|' ∧ c ≠ ',' := by
  refine ⟨?_, ?_, ?_, ?_, ?_, ?_⟩
  · cases hws : isWsChar c with
    | false => rfl
    | true =>
      exfalso
      simp only [isWsChar, Bool.or_eq_true, decide_eq_true_eq] at hws
      rcases hws with ((((rfl | rfl) | rfl) | rfl) | rfl) | rfl <;>
        exact absurd h (by decide)
  · intro hc; subst hc; exact absurd h (by decide)
  · intro hc; subst hc; exact absurd h (by decide)
  · intro hc; subst hc; exact absurd h (by decide)
  · intro hc; subst hc; exact absurd h (by decide)
  · intro hc; subst hc; exact absurd h (by decide)

theorem takeWhile_append_stop (p : Char → Bool) (xs : List Char) (y : Char)
    (ys : List Char) (hxs : ∀ c ∈ xs, p c = true) (hy : p y = false) :
    (xs ++ y :: ys).takeWhile p = xs := by
  induction xs with
  | nil => simp [List.takeWhile, hy]
  | cons x xs ih =>
    have hx : p x = true := hxs x (List.mem_cons_self _ _)
    have ih' := ih (fun c hc => hxs c (List.mem_cons_of_mem _ hc))
    rw [List.cons_append, List.takeWhile_cons, hx, if_pos rfl, ih']

theorem dropWhile_none (p : Char → Bool) (xs : List Char)
    (hxs : ∀ c ∈ xs, p c = false) : xs.dropWhile p = xs := by
  induction xs with
  | nil => rfl
  | cons x xs ih =>
    have hx : p x = false := hxs x (List.mem_cons_self _ _)
    simp only [List.dropWhile, hx]

theorem dropWhile_append_first (p : Char → Bool) (xs : List Char) (y : Char)
    (ys : List Char) (hxs : ∀ c ∈ xs, p c = false) (hy : p y = false) :
    (xs ++ y :: ys).dropWhile p = xs ++ y :: ys := by
  cases xs with
  | nil => simp [List.dropWhile, hy]
  | cons x xs =>
    have hx : p x = false := hxs x (List.mem_cons_self _ _)
    simp [List.dropWhile, hx]

theorem wordStr_spec (s : String) (h : wordStr s = true) :
    s.data ≠ [] ∧ ∀ c ∈ s.data, isWordChar c = true := by
  simp only [wordStr, Bool.and_eq_true, Bool.not_eq_true', List.all_eq_true] at h
  refine ⟨?_, h.2⟩
  intro hnil
  rw [hnil] at h
  exact absurd h.1 (by decide)

theorem wordChar_not_stopA (c : Char) (h : isWordChar c = true) : isStopA c = false := by
  obtain ⟨-, -, h3, -, h5, -⟩ := wordChar_spec c h
  simp [isStopA, h3, h5]

theorem wordChar_not_stopB (c : Char) (h : isWordChar c = true) : isStopB c = false := by
  obtain ⟨-, h2, h3, h4, h5, -⟩ := wordChar_spec c h
  simp [isStopB, h2, h3, h4, h5]

theorem internalComma_not_mem (w : List Char) (h : ',' ∉ w) : internalComma w = false := by
  unfold internalComma
  cases hc : ((w.drop 1).dropLast).contains ',' with
  | false => rfl
  | true =>
    exact absurd (List.drop_subset 1 w (List.dropLast_subset _ (List.mem_of_elem_eq_true hc))) h

theorem internalComma_append (a z : List Char) (ha : a ≠ []) (hz : z ≠ []) :
    internalComma (a ++ ',' :: z) = true := by
  obtain ⟨c, a', rfl⟩ := List.exists_cons_of_ne_nil ha
  rcases List.eq_nil_or_concat z with rfl | ⟨zl, x, rfl⟩
  · exact absurd rfl hz
  · unfold internalComma
    have h1 : ((c :: a') ++ ',' :: zl.concat x).drop 1 = a' ++ ',' :: zl.concat x := rfl
    rw [h1, List.concat_eq_append]
    have h2 : a' ++ ',' :: (zl ++ [x]) = (a' ++ ',' :: zl) ++ [x] := by simp
    rw [h2, List.dropLast_concat]
    have h3 : ',' ∈ a' ++ ',' :: zl := List.mem_append_right _ (List.mem_cons_self _ _)
    exact List.elem_eq_true_of_mem h3

theorem dropLit_some (lit : List Char) : ∀ (nd r : List Char),
    dropLit lit nd = some r → nd = lit ++ r := by
  induction lit with
  | nil =>
    intro nd r h
    simp only [dropLit, Option.some.injEq] at h
    rw [h]; rfl
  | cons c cs ih =>
    intro nd r h
    cases nd with
    | nil => simp [dropLit] at h
    | cons d ds =>
      unfold dropLit at h
      by_cases hcd : c = d
      · rw [if_pos hcd] at h
        have := ih ds r h
        subst hcd
        rw [List.cons_append, ← this]
  
      · rw [if_neg hcd] at h
        exact absurd h (by simp)

theorem joinOpts_cons₂ (o o2 : String) (rest : List String) :
    joinOpts (o :: o2 :: rest) = o.data ++ ',' :: joinOpts (o2 :: rest) := rfl

theorem joinOpts_ne_nil (o : String) (rest : List String) (ho : wordStr o = true) :
    joinOpts (o :: rest) ≠ [] := by
  cases rest with
  | nil =>
    show o.data ≠ []
    exact (wordStr_spec o ho).1
  | cons o2 rest =>
    rw [joinOpts_cons₂]
    intro hnil
    rcases List.append_eq_nil.mp hnil with ⟨-, h2⟩
    exact absurd h2 (by simp)

theorem joinOpts_chars : ∀ (opts : List String), (∀ o ∈ opts, wordStr o = true) →
    ∀ c ∈ joinOpts opts, isWordChar c = true ∨ c = ',' := by
  intro opts
  induction opts with
  | nil => intro _ c hc; exact absurd hc (List.not_mem_nil c)
  | cons o rest ih =>
    intro h c hc
    cases rest with
    | nil =>
      have hc' : c ∈ o.data := hc
      exact Or.inl ((wordStr_spec o (h o (List.mem_cons_self _ _))).2 c hc')
    | cons o2 rest2 =>
      rw [joinOpts_cons₂] at hc
      rcases List.mem_append.mp hc with hc | hc
      · exact Or.inl ((wordStr_spec o (h o (List.mem_cons_self _ _))).2 c hc)
      · rcases List.mem_cons.mp hc with rfl | hc
        · exact Or.inr rfl
        · exact ih (fun x hx => h x (List.mem_cons_of_mem _ hx)) c hc

theorem matchEnding_none (r : List Char) :
    matchEnding ('\x7d' :: '\x7d' :: r) = some (none, r) := rfl

theorem matchEnding_some (d : String) (hd : wordStr d = true) (r : List Char) :
    ∃ cap, matchEnding ('|' :: (d.data ++ '\x7d' :: '\x7d' :: r)) = some (some cap, r) := by
  obtain ⟨hne, hword⟩ := wordStr_spec d hd
  have htake : (d.data ++ '\x7d' :: '\x7d' :: r).takeWhile
      (fun c => decide ¬(c = '\x7d')) = d.data := by
    refine takeWhile_append_stop _ _ _ _ (fun c hc => ?_) (by decide)
    exact decide_eq_true (wordChar_spec c (hword c hc)).2.2.1
  refine ⟨⟨trimChars d.data⟩, ?_⟩
  show (let dcap := (d.data ++ '\x7d' :: '\x7d' :: r).takeWhile (fun c => decide ¬(c = '\x7d'))
        if dcap.isEmpty then none
        else
          match (d.data ++ '\x7d' :: '\x7d' :: r).drop dcap.length with
          | '\x7d' :: '\x7d' :: r2 => some (some (⟨trimChars dcap⟩ : String), r2)
          | _ => none) = some (some (⟨trimChars d.data⟩ : String), r)
  simp only [htake]
  obtain ⟨c0, d', hd'⟩ := List.exists_cons_of_ne_nil hne
  rw [if_neg (by rw [hd']; simp)]
  rw [List.drop_left]
  rfl

theorem matchOptsTail_pos (isStop : Char → Bool)
    (hsw : ∀ c, isWordChar c = true → isStop c = false)
    (hsc : isStop ',' = false) (hs7 : isStop '\x7d' = true) (hsb : isStop '|' = true)
    (opts : List String) (ho : optsOk opts = true)
    (d : Option String) (hd : dfltOk d = true) (r : List Char) :
    ∃ os dd, matchOptsTail isStop (joinOpts opts ++ (renderDflt d ++ '\x7d' :: '\x7d' :: r))
      = some (os, dd, r) := by
  simp only [optsOk, Bool.and_eq_true, decide_eq_true_eq, List.all_eq_true] at ho
  obtain ⟨hlen, hall⟩ := ho
  have hjchars : ∀ c ∈ joinOpts opts, (fun c => !(isStop c)) c = true := by
    intro c hc
    rcases joinOpts_chars opts hall c hc with hw | rfl
    · simp [hsw c hw]
    · simp [hsc]
  obtain ⟨x0, X', dd', hX, hx0, hend⟩ : ∃ x0 X' dd',
      renderDflt d ++ '\x7d' :: '\x7d' :: r = x0 :: X' ∧ isStop x0 = true ∧
      matchEnding (x0 :: X') = some (dd', r) := by
    cases d with
    | none => exact ⟨'\x7d', '\x7d' :: r, none, rfl, hs7, rfl⟩
    | some dd =>
      obtain ⟨cap, hcap⟩ := matchEnding_some dd hd r
      exact ⟨'|', dd.data ++ '\x7d' :: '\x7d' :: r, some cap, by simp [renderDflt], hsb, hcap⟩
  rw [hX]
  have hW : (joinOpts opts ++ x0 :: X').takeWhile (fun c => !(isStop c)) = joinOpts opts :=
    takeWhile_append_stop _ _ _ _ hjchars (by simp [hx0])
  obtain ⟨o1, rest1, h1⟩ := List.exists_cons_of_ne_nil
    (show opts ≠ [] by intro h; rw [h] at hlen; simp at hlen)
  subst h1
  obtain ⟨o2, rest2, h2⟩ := List.exists_cons_of_ne_nil
    (show rest1 ≠ [] by intro h; rw [h] at hlen; simp at hlen)
  subst h2
  have hic : internalComma (joinOpts (o1 :: o2 :: rest2)) = true := by
    rw [joinOpts_cons₂]
    exact internalComma_append _ _ (wordStr_spec o1 (hall o1 (by simp))).1
      (joinOpts_ne_nil o2 rest2 (hall o2 (by simp)))
  unfold matchOptsTail
  simp only [hW, hic, if_true, List.drop_left, hend]
  exact ⟨_, dd', rfl⟩

theorem matchNamedAt_blocked (w : List Char) (b : Char) (R : List Char)
    (hw : ∀ c ∈ w, isWordChar c = true) (hbw : isWordChar b = false)
    (hbs : isWsChar b = false) (hbc : b ≠ ':') :
    matchNamedAt ('\x7b' :: '\x7b' :: (w ++ b :: R)) = none := by
  have hws : ∀ c ∈ w, isWsChar c = false := fun c hc => (wordChar_spec c (hw c hc)).1
  have hr1 : (w ++ b :: R).dropWhile isWsChar = w ++ b :: R :=
    dropWhile_append_first _ _ _ _ hws hbs
  have hname : (w ++ b :: R).takeWhile isWordChar = w :=
    takeWhile_append_stop _ _ _ _ hw hbw
  unfold matchNamedAt
  simp only [hr1, hname]
  cases w with
  | nil => simp
  | cons c w' =>
    rw [if_neg (by simp)]
    rw [List.drop_left, List.dropWhile_cons, hbs, if_neg (by simp)]
    split
    · next heq =>
      injection heq with h1 _
      exact absurd h1 hbc
    · rfl

theorem matchAnonAt_blocked (w : List Char) (b : Char) (R : List Char)
    (hw : ∀ c ∈ w, isStopB c = false) (hcomma : ',' ∉ w) (hb : isStopB b = true) :
    matchAnonAt ('\x7b' :: '\x7b' :: (w ++ b :: R)) = none := by
  have hW : (w ++ b :: R).takeWhile (fun c => !(isStopB c)) = w :=
    takeWhile_append_stop _ _ _ _ (fun c hc => by simp [hw c hc]) (by simp [hb])
  unfold matchAnonAt matchOptsTail
  simp only [hW, internalComma_not_mem w hcomma]
  rfl

theorem dropWhile_ws_cons_ne (c : Char) (l : List Char) (hc : isWsChar c = false) :
    List.dropWhile isWsChar (c :: l) = c :: l := by
  rw [List.dropWhile_cons, hc]
  simp

theorem matchRadioAt_blocked (w : List Char) (b : Char) (R : List Char)
    (hw : ∀ c ∈ w, isWordChar c = true) (hbs : isWsChar b = false)
    (hbbar : b ≠ '|') (hbr : b ∉ (['r', 'a', 'd', 'i', 'o'] : List Char)) :
    matchRadioAt ('\x7b' :: '\x7b' :: (w ++ b :: R)) = none := by
  have hws : ∀ c ∈ w, isWsChar c = false := fun c hc => (wordChar_spec c (hw c hc)).1
  have hr1 : (w ++ b :: R).dropWhile isWsChar = w ++ b :: R :=
    dropWhile_append_first _ _ _ _ hws hbs
  unfold matchRadioAt
  simp only [hr1]
  cases hdl : dropLit ['r', 'a', 'd', 'i', 'o'] (w ++ b :: R) with
  | none => rfl
  | some r2 =>
    have heq := dropLit_some _ _ _ hdl
    have htail : r2 = b :: R ∨ ∃ y ys, r2 = y :: ys ∧ isWordChar y = true := by
      rcases List.append_eq_append_iff.mp heq with ⟨a', hca, hcb⟩ | ⟨c', hcc, hcd⟩
      · cases a' with
        | nil => exact Or.inl (by simpa using hcb.symm)
        | cons x xs =>
          exfalso
          have hbx : b = x := by
            have := hcb
            rw [List.cons_append] at this
            exact (List.cons.injEq _ _ _ _).mp this |>.1
          have hxmem : x ∈ (['r', 'a', 'd', 'i', 'o'] : List Char) := by
            rw [hca]
            exact List.mem_append_right _ (List.mem_cons_self _ _)
          rw [← hbx] at hxmem
          exact hbr hxmem
      · cases c' with
        | nil => exact Or.inl (by simpa using hcd)
        | cons y ys =>
          refine Or.inr ⟨y, ys ++ b :: R, by simpa using hcd, ?_⟩
          refine hw y ?_
          rw [hcc]
          exact List.mem_append_right _ (List.mem_cons_self _ _)
    rcases htail with rfl | ⟨y, ys, rfl, hy⟩
    · simp only [dropWhile_ws_cons_ne _ _ hbs]
      split
      · next heq2 =>
        injection heq2 with h1 _
        exact absurd h1 hbbar
      · rfl
    · simp only [dropWhile_ws_cons_ne _ _ (wordChar_spec y hy).1]
      split
      · next heq2 =>
        injection heq2 with h1 _
        exact absurd h1 (wordChar_spec y hy).2.2.2.2.1
      · rfl

theorem matchAiAt_blocked (w : List Char) (b : Char) (R : List Char)
    (hw : ∀ c ∈ w, isWordChar c = true) (hbs : isWsChar b = false)
    (hbbar : b ≠ '|') (hbr : b ∉ (['a', 'i'] : List Char)) :
    matchAiAt ('\x7b' :: '\x7b' :: (w ++ b :: R)) = none := by
  have hws : ∀ c ∈ w, isWsChar c = false := fun c hc => (wordChar_spec c (hw c hc)).1
  have hr1 : (w ++ b :: R).dropWhile isWsChar = w ++ b :: R :=
    dropWhile_append_first _ _ _ _ hws hbs
  unfold matchAiAt
  simp only [hr1]
  cases hdl : dropLit ['a', 'i'] (w ++ b :: R) with
  | none => rfl
  | some r2 =>
    have heq := dropLit_some _ _ _ hdl
    have htail : r2 = b :: R ∨ ∃ y ys, r2 = y :: ys ∧ isWordChar y = true := by
      rcases List.append_eq_append_iff.mp heq with ⟨a', hca, hcb⟩ | ⟨c', hcc, hcd⟩
      · cases a' with
        | nil => exact Or.inl (by simpa using hcb.symm)
        | cons x xs =>
          exfalso
          have hbx : b = x := by
            have := hcb
            rw [List.cons_append] at this
            exact (List.cons.injEq _ _ _ _).mp this |>.1
          have hxmem : x ∈ (['a', 'i'] : List Char) := by
            rw [hca]
            exact List.mem_append_right _ (List.mem_cons_self _ _)
          rw [← hbx] at hxmem
          exact hbr hxmem
      · cases c' with
        | nil => exact Or.inl (by simpa using hcd)
        | cons y ys =>
          refine Or.inr ⟨y, ys ++ b :: R, by simpa using hcd, ?_⟩
          refine hw y ?_
          rw [hcc]
          exact List.mem_append_right _ (List.mem_cons_self _ _)
    rcases htail with rfl | ⟨y, ys, rfl, hy⟩
    · simp only [dropWhile_ws_cons_ne _ _ hbs]
      split
      · next heq2 =>
        injection heq2 with h1 _
        exact absurd h1 hbbar
      · rfl
    · simp only [dropWhile_ws_cons_ne _ _ (wordChar_spec y hy).1]
      split
      · next heq2 =>
        injection heq2 with h1 _
        exact absurd h1 (wordChar_spec y hy).2.2.2.2.1
      · rfl

theorem matchRadioAt_on_ai (R : List Char) :
    matchRadioAt ('\x7b' :: '\x7b' :: ('a' :: 'i' :: '|' :: R)) = none := rfl

theorem matchAiAt_on_radio (R : List Char) :
    matchAiAt ('\x7b' :: '\x7b' :: ('r' :: 'a' :: 'd' :: 'i' :: 'o' :: '|' :: R)) = none := rfl

theorem dropLit_radio (T : List Char) :
    dropLit ['r', 'a', 'd', 'i', 'o'] ('r' :: 'a' :: 'd' :: 'i' :: 'o' :: T) = some T := rfl

theorem dropLit_ai (T : List Char) :
    dropLit ['a', 'i'] ('a' :: 'i' :: T) = some T := rfl

theorem matchNamedAt_pos (n : String) (opts : List String) (d : Option String)
    (suffix : List Char) (hn : wordStr n = true) (ho : optsOk opts = true)
    (hd : dfltOk d = true) :
    ∃ nm os dd, matchNamedAt ('\x7b' :: '\x7b' ::
        (n.data ++ ':' :: (joinOpts opts ++ (renderDflt d ++ '\x7d' :: '\x7d' :: suffix))))
      = some (n.data.length + (joinOpts opts).length + (renderDflt d).length + 5, nm, os, dd) := by
  obtain ⟨hne, hword⟩ := wordStr_spec n hn
  have hws : ∀ c ∈ n.data, isWsChar c = false := fun c hc => (wordChar_spec c (hword c hc)).1
  have hr1 : (n.data ++ ':' :: (joinOpts opts ++ (renderDflt d ++ '\x7d' :: '\x7d' :: suffix))).dropWhile isWsChar
      = n.data ++ ':' :: (joinOpts opts ++ (renderDflt d ++ '\x7d' :: '\x7d' :: suffix)) :=
    dropWhile_append_first _ _ _ _ hws (by decide)
  have hname : (n.data ++ ':' :: (joinOpts opts ++ (renderDflt d ++ '\x7d' :: '\x7d' :: suffix))).takeWhile isWordChar
      = n.data :=
    takeWhile_append_stop _ _ _ _ hword (by decide)
  obtain ⟨os, dd, hopts⟩ := matchOptsTail_pos isStopA wordChar_not_stopA (by decide)
    (by decide) (by decide) opts ho d hd suffix
  refine ⟨⟨n.data⟩, os, dd, ?_⟩
  unfold matchNamedAt
  simp only [hr1, hname]
  rw [if_neg (by intro hE; exact hne (by simpa using hE))]
  rw [List.drop_left]
  simp only [dropWhile_ws_cons_ne _ _ (by decide : isWsChar ':' = false)]
  split
  · next r3 heq =>
    rw [hopts] at heq
    simp only [Option.some.injEq, Prod.mk.injEq] at heq
    obtain ⟨rfl, rfl, rfl⟩ := heq
    have hlen : ('\x7b' :: '\x7b' ::
        (n.data ++ ':' :: (joinOpts opts ++ (renderDflt d ++ '\x7d' :: '\x7d' :: suffix)))).length
          - suffix.length
        = n.data.length + (joinOpts opts).length + (renderDflt d).length + 5 := by
      simp only [List.length_cons, List.length_append]
      omega
    rw [hlen]
  · next h =>
    rw [hopts] at h
    exact Option.noConfusion h

theorem matchAnonAt_pos (opts : List String) (d : Option String) (suffix : List Char)
    (ho : optsOk opts = true) (hd : dfltOk d = true) :
    ∃ os dd, matchAnonAt ('\x7b' :: '\x7b' ::
        (joinOpts opts ++ (renderDflt d ++ '\x7d' :: '\x7d' :: suffix)))
      = some ((joinOpts opts).length + (renderDflt d).length + 4, os, dd) := by
  obtain ⟨os, dd, hopts⟩ := matchOptsTail_pos isStopB wordChar_not_stopB (by decide)
    (by decide) (by decide) opts ho d hd suffix
  refine ⟨os, dd, ?_⟩
  unfold matchAnonAt
  simp only [hopts]
  have hlen : ('\x7b' :: '\x7b' ::
      (joinOpts opts ++ (renderDflt d ++ '\x7d' :: '\x7d' :: suffix))).length - suffix.length
      = (joinOpts opts).length + (renderDflt d).length + 4 := by
    simp only [List.length_cons, List.length_append]
    omega
  rw [hlen]

theorem matchRadioAt_pos (opts : List String) (d : Option String) (suffix : List Char)
    (ho : optsOk opts = true) (hd : dfltOk d = true) :
    ∃ os dd, matchRadioAt ('\x7b' :: '\x7b' :: ('r' :: 'a' :: 'd' :: 'i' :: 'o' :: '|' ::
        (joinOpts opts ++ (renderDflt d ++ '\x7d' :: '\x7d' :: suffix))))
      = some ((joinOpts opts).length + (renderDflt d).length + 10, os, dd) := by
  obtain ⟨os, dd, hopts⟩ := matchOptsTail_pos isStopA wordChar_not_stopA (by decide)
    (by decide) (by decide) opts ho d hd suffix
  refine ⟨os, dd, ?_⟩
  unfold matchRadioAt
  simp only [dropWhile_ws_cons_ne _ _ (by decide : isWsChar 'r' = false), dropLit_radio]
  simp only [dropWhile_ws_cons_ne _ _ (by decide : isWsChar '|' = false)]
  split
  · next r3 heq =>
    rw [hopts] at heq
    simp only [Option.some.injEq, Prod.mk.injEq] at heq
    obtain ⟨rfl, rfl, rfl⟩ := heq
    have hlen : ('\x7b' :: '\x7b' :: ('r' :: 'a' :: 'd' :: 'i' :: 'o' :: '|' ::
        (joinOpts opts ++ (renderDflt d ++ '\x7d' :: '\x7d' :: suffix)))).length - suffix.length
        = (joinOpts opts).length + (renderDflt d).length + 10 := by
      simp only [List.length_cons, List.length_append]
      omega
    rw [hlen]
  · next h =>
    rw [hopts] at h
    exact Option.noConfusion h

theorem matchAiTail_pos (p : String) (hp : wordStr p = true) (d : Option String)
    (hd : dfltOk d = true) (r : List Char) :
    ∃ pp dd, matchAiTail (p.data ++ (renderDflt d ++ '\x7d' :: '\x7d' :: r))
      = some (pp, dd, r) := by
  obtain ⟨hne, hword⟩ := wordStr_spec p hp
  obtain ⟨x0, X', dd', hX, hx0, hend⟩ : ∃ x0 X' dd',
      renderDflt d ++ '\x7d' :: '\x7d' :: r = x0 :: X' ∧ isStopA x0 = true ∧
      matchEnding (x0 :: X') = some (dd', r) := by
    cases d with
    | none => exact ⟨'\x7d', '\x7d' :: r, none, rfl, by decide, rfl⟩
    | some dd =>
      obtain ⟨cap, hcap⟩ := matchEnding_some dd hd r
      exact ⟨'|', dd.data ++ '\x7d' :: '\x7d' :: r, some cap, by simp [renderDflt], by decide, hcap⟩
  rw [hX]
  have hW : (p.data ++ x0 :: X').takeWhile (fun c => !(isStopA c)) = p.data :=
    takeWhile_append_stop _ _ _ _
      (fun c hc => by simp [wordChar_not_stopA c (hword c hc)]) (by simp [hx0])
  unfold matchAiTail
  simp only [hW]
  rw [if_neg (by intro hE; exact hne (by simpa using hE))]
  rw [List.drop_left, hend]
  exact ⟨_, dd', rfl⟩

theorem matchAiAt_pos (p : String) (d : Option String) (suffix : List Char)
    (hp : wordStr p = true) (hd : dfltOk d = true) :
    ∃ pp dd, matchAiAt ('\x7b' :: '\x7b' :: ('a' :: 'i' :: '|' ::
        (p.data ++ (renderDflt d ++ '\x7d' :: '\x7d' :: suffix))))
      = some (p.data.length + (renderDflt d).length + 7, pp, dd) := by
  obtain ⟨pp, dd, htail⟩ := matchAiTail_pos p hp d hd suffix
  refine ⟨pp, dd, ?_⟩
  unfold matchAiAt
  simp only [dropWhile_ws_cons_ne _ _ (by decide : isWsChar 'a' = false), dropLit_ai]
  simp only [dropWhile_ws_cons_ne _ _ (by decide : isWsChar '|' = false)]
  split
  · next r3 heq =>
    rw [htail] at heq
    simp only [Option.some.injEq, Prod.mk.injEq] at heq
    obtain ⟨rfl, rfl, rfl⟩ := heq
    have hlen : ('\x7b' :: '\x7b' :: ('a' :: 'i' :: '|' ::
        (p.data ++ (renderDflt d ++ '\x7d' :: '\x7d' :: suffix)))).length - suffix.length
        = p.data.length + (renderDflt d).length + 7 := by
      simp only [List.length_cons, List.length_append]
      omega
    rw [hlen]
  · next h =>
    rw [htail] at h
    exact Option.noConfusion h

theorem combined_none_head (c : Char) (s : List Char) (hc : c ≠ '\x7b') :
    combinedMatchLen (c :: s) = none := by
  rw [combinedMatchLen.eq_def]
  split
  · next heq =>
    injection heq with h1 _
    exact absurd h1 hc
  · rfl

theorem combined_none_second (c : Char) (s : List Char) (hc : c ≠ '\x7b') :
    combinedMatchLen ('\x7b' :: c :: s) = none := by
  rw [combinedMatchLen.eq_def]
  split
  · next heq =>
    injection heq with _ h2
    injection h2 with h2a _
    exact absurd h2a hc
  · rfl

theorem combined_simple_blocked (n : String) (hn : wordStr n = true) (suffix : List Char) :
    combinedMatchLen ('\x7b' :: '\x7b' :: (n.data ++ '\x7d' :: '\x7d' :: suffix)) = none := by
  obtain ⟨hne, hword⟩ := wordStr_spec n hn
  have hb1 := matchNamedAt_blocked n.data '\x7d' ('\x7d' :: suffix) hword
    (by decide) (by decide) (by decide)
  have hb2 := matchAnonAt_blocked n.data '\x7d' ('\x7d' :: suffix)
    (fun c hc => wordChar_not_stopB c (hword c hc))
    (fun hmem => absurd (hword ',' hmem) (by decide)) (by decide)
  have hb3 := matchRadioAt_blocked n.data '\x7d' ('\x7d' :: suffix) hword
    (by decide) (by decide) (by decide)
  have hb4 := matchAiAt_blocked n.data '\x7d' ('\x7d' :: suffix) hword
    (by decide) (by decide) (by decide)
  unfold combinedMatchLen
  simp only [hb1, hb2, hb3, hb4]

theorem combinedMatchLen_part (P : TPart) (hP : partOk P = true)
    (hc : isChoicePart P = true) (suffix : List Char) :
    combinedMatchLen (renderPart P ++ suffix) = some ((renderPart P).length) := by
  cases P with
  | lit s => simp [isChoicePart] at hc
  | simple n => simp [isChoicePart] at hc
  | namedTok n opts d =>
    simp only [partOk, Bool.and_eq_true] at hP
    obtain ⟨⟨hn, ho⟩, hd⟩ := hP
    have hshape : renderPart (.namedTok n opts d) ++ suffix
        = '\x7b' :: '\x7b' ::
          (n.data ++ ':' :: (joinOpts opts ++ (renderDflt d ++ '\x7d' :: '\x7d' :: suffix))) := by
      simp [renderPart, List.append_assoc]
    obtain ⟨nm, os, dd, hA⟩ := matchNamedAt_pos n opts d suffix hn ho hd
    rw [hshape]
    unfold combinedMatchLen
    simp only [hA]
    have hL : (renderPart (TPart.namedTok n opts d)).length
        = n.data.length + (joinOpts opts).length + (renderDflt d).length + 5 := by
      simp only [renderPart, List.length_cons, List.length_append, List.length_nil]
      omega
    rw [hL]
  | anonTok opts d =>
    simp only [partOk, Bool.and_eq_true] at hP
    obtain ⟨ho, hd⟩ := hP
    have ho' := ho
    simp only [optsOk, Bool.and_eq_true, decide_eq_true_eq, List.all_eq_true] at ho'
    obtain ⟨hlen2, hall⟩ := ho'
    obtain ⟨o1, rest1, h1⟩ := List.exists_cons_of_ne_nil
      (show opts ≠ [] by intro h; rw [h] at hlen2; simp at hlen2)
    subst h1
    obtain ⟨o2, rest2, h2⟩ := List.exists_cons_of_ne_nil
      (show rest1 ≠ [] by intro h; rw [h] at hlen2; simp at hlen2)
    subst h2
    have hshape : renderPart (.anonTok (o1 :: o2 :: rest2) d) ++ suffix
        = '\x7b' :: '\x7b' :: (o1.data ++ ',' ::
          (joinOpts (o2 :: rest2) ++ (renderDflt d ++ '\x7d' :: '\x7d' :: suffix))) := by
      simp [renderPart, joinOpts_cons₂, List.append_assoc]
    have hb1 := matchNamedAt_blocked o1.data ','
      (joinOpts (o2 :: rest2) ++ (renderDflt d ++ '\x7d' :: '\x7d' :: suffix))
      (wordStr_spec o1 (hall o1 (by simp))).2 (by decide) (by decide) (by decide)
    obtain ⟨os, dd, hB⟩ := matchAnonAt_pos (o1 :: o2 :: rest2) d suffix ho hd
    have hshape2 : ('\x7b' : Char) :: '\x7b' ::
        (joinOpts (o1 :: o2 :: rest2) ++ (renderDflt d ++ '\x7d' :: '\x7d' :: suffix))
        = '\x7b' :: '\x7b' :: (o1.data ++ ',' ::
          (joinOpts (o2 :: rest2) ++ (renderDflt d ++ '\x7d' :: '\x7d' :: suffix))) := by
      simp [joinOpts_cons₂, List.append_assoc]
    rw [hshape2] at hB
    rw [hshape]
    unfold combinedMatchLen
    simp only [hb1, hB]
    have hL : (renderPart (TPart.anonTok (o1 :: o2 :: rest2) d)).length
        = (joinOpts (o1 :: o2 :: rest2)).length + (renderDflt d).length + 4 := by
      simp only [renderPart, List.length_cons, List.length_append, List.length_nil]
    rw [hL]
  | radioTok opts d =>
    simp only [partOk, Bool.and_eq_true] at hP
    obtain ⟨ho, hd⟩ := hP
    have hshape : renderPart (.radioTok opts d) ++ suffix
        = '\x7b' :: '\x7b' :: ('r' :: 'a' :: 'd' :: 'i' :: 'o' :: '|' ::
          (joinOpts opts ++ (renderDflt d ++ '\x7d' :: '\x7d' :: suffix))) := by
      simp [renderPart, List.append_assoc]
    have hb1 : matchNamedAt ('\x7b' :: '\x7b' :: ('r' :: 'a' :: 'd' :: 'i' :: 'o' :: '|' ::
        (joinOpts opts ++ (renderDflt d ++ '\x7d' :: '\x7d' :: suffix)))) = none :=
      matchNamedAt_blocked ['r', 'a', 'd', 'i', 'o'] '|' _
        (by decide) (by decide) (by decide) (by decide)
    have hb2 : matchAnonAt ('\x7b' :: '\x7b' :: ('r' :: 'a' :: 'd' :: 'i' :: 'o' :: '|' ::
        (joinOpts opts ++ (renderDflt d ++ '\x7d' :: '\x7d' :: suffix)))) = none :=
      matchAnonAt_blocked ['r', 'a', 'd', 'i', 'o'] '|' _
        (by decide) (by decide) (by decide)
    obtain ⟨os, dd, hB⟩ := matchRadioAt_pos opts d suffix ho hd
    rw [hshape]
    unfold combinedMatchLen
    simp only [hb1, hb2, hB]
    have hL : (renderPart (TPart.radioTok opts d)).length
        = (joinOpts opts).length + (renderDflt d).length + 10 := by
      simp only [renderPart, List.length_cons, List.length_append, List.length_nil]
    rw [hL]
  | aiTok p d =>
    simp only [partOk, Bool.and_eq_true] at hP
    obtain ⟨hp, hd⟩ := hP
    have hshape : renderPart (.aiTok p d) ++ suffix
        = '\x7b' :: '\x7b' :: ('a' :: 'i' :: '|' ::
          (p.data ++ (renderDflt d ++ '\x7d' :: '\x7d' :: suffix))) := by
      simp [renderPart, List.append_assoc]
    have hb1 : matchNamedAt ('\x7b' :: '\x7b' :: ('a' :: 'i' :: '|' ::
        (p.data ++ (renderDflt d ++ '\x7d' :: '\x7d' :: suffix)))) = none :=
      matchNamedAt_blocked ['a', 'i'] '|' _
        (by decide) (by decide) (by decide) (by decide)
    have hb2 : matchAnonAt ('\x7b' :: '\x7b' :: ('a' :: 'i' :: '|' ::
        (p.data ++ (renderDflt d ++ '\x7d' :: '\x7d' :: suffix)))) = none :=
      matchAnonAt_blocked ['a', 'i'] '|' _
        (by decide) (by decide) (by decide)
    have hb3 := matchRadioAt_on_ai (p.data ++ (renderDflt d ++ '\x7d' :: '\x7d' :: suffix))
    obtain ⟨pp, dd, hB⟩ := matchAiAt_pos p d suffix hp hd
    rw [hshape]
    unfold combinedMatchLen
    simp only [hb1, hb2, hb3, hB]
    have hL : (renderPart (TPart.aiTok p d)).length
        = p.data.length + (renderDflt d).length + 7 := by
      simp only [renderPart, List.length_cons, List.length_append, List.length_nil]
    rw [hL]

theorem renderPart_choice_cons (P : TPart) (hcp : isChoicePart P = true) :
    ∃ t1, renderPart P = '\x7b' :: t1 := by
  cases P with
  | lit s => exact Bool.noConfusion hcp
  | simple n => exact Bool.noConfusion hcp
  | namedTok n opts d => exact ⟨_, rfl⟩
  | anonTok opts d => exact ⟨_, rfl⟩
  | radioTok opts d => exact ⟨_, rfl⟩
  | aiTok p d => exact ⟨_, rfl⟩

theorem replaceChoice_nil_input (sel : Nat → String) (fuel i : Nat) :
    replaceChoice sel fuel [] i = [] := by
  cases fuel <;> rfl

theorem replaceChoice_step_none (sel : Nat → String) (fuel : Nat) (c : Char)
    (rest : List Char) (i : Nat) (h : combinedMatchLen (c :: rest) = none) :
    replaceChoice sel (fuel + 1) (c :: rest) i = c :: replaceChoice sel fuel rest i := by
  show (match combinedMatchLen (c :: rest) with
    | some len =>
      if len = 0 then c :: replaceChoice sel fuel rest i
      else (sel i).data ++ replaceChoice sel fuel ((c :: rest).drop len) (i + 1)
    | none => c :: replaceChoice sel fuel rest i) = c :: replaceChoice sel fuel rest i
  rw [h]

theorem replaceChoice_step_some (sel : Nat → String) (fuel : Nat) (c : Char)
    (rest : List Char) (i len : Nat) (h : combinedMatchLen (c :: rest) = some len)
    (hlen : len ≠ 0) :
    replaceChoice sel (fuel + 1) (c :: rest) i
      = (sel i).data ++ replaceChoice sel fuel ((c :: rest).drop len) (i + 1) := by
  show (match combinedMatchLen (c :: rest) with
    | some len =>
      if len = 0 then c :: replaceChoice sel fuel rest i
      else (sel i).data ++ replaceChoice sel fuel ((c :: rest).drop len) (i + 1)
    | none => c :: replaceChoice sel fuel rest i)
      = (sel i).data ++ replaceChoice sel fuel ((c :: rest).drop len) (i + 1)
  rw [h]
  show (if len = 0 then c :: replaceChoice sel fuel rest i
    else (sel i).data ++ replaceChoice sel fuel ((c :: rest).drop len) (i + 1))
      = (sel i).data ++ replaceChoice sel fuel ((c :: rest).drop len) (i + 1)
  rw [if_neg hlen]

theorem replaceChoice_copy (sel : Nat → String) :
    ∀ (pre : List Char), (∀ c ∈ pre, c ≠ '\x7b') →
    ∀ (fuel : Nat) (s : List Char) (i : Nat),
      replaceChoice sel (fuel + pre.length) (pre ++ s) i = pre ++ replaceChoice sel fuel s i := by
  intro pre
  induction pre with
  | nil => intro _ fuel s i; rfl
  | cons c pre' ih =>
    intro h fuel s i
    have hc : c ≠ '\x7b' := h c (List.mem_cons_self _ _)
    have hnone : combinedMatchLen (c :: (pre' ++ s)) = none := combined_none_head c _ hc
    rw [List.cons_append]
    calc replaceChoice sel (fuel + (c :: pre').length) (c :: (pre' ++ s)) i
        = c :: replaceChoice sel (fuel + pre'.length) (pre' ++ s) i :=
          replaceChoice_step_none sel (fuel + pre'.length) c (pre' ++ s) i hnone
      _ = c :: (pre' ++ replaceChoice sel fuel s i) := by
          rw [ih (fun d hd => h d (List.mem_cons_of_mem _ hd)) fuel s i]
      _ = (c :: pre') ++ replaceChoice sel fuel s i := rfl

theorem replaceChoice_render (sel : Nat → String) :
    ∀ (parts : List TPart), (∀ p ∈ parts, partOk p = true) →
    ∀ (extra : Nat) (i : Nat),
      replaceChoice sel (extra + (renderTemplate parts).length) (renderTemplate parts) i
        = renderTemplate (substChoices sel parts i) := by
  intro parts
  induction parts with
  | nil => intro _ extra i; exact replaceChoice_nil_input sel _ i
  | cons P rest ih =>
    intro hok extra i
    have hokP : partOk P = true := hok P (List.mem_cons_self _ _)
    have hokR : ∀ q ∈ rest, partOk q = true := fun q hq => hok q (List.mem_cons_of_mem _ hq)
    by_cases hcp : isChoicePart P = true
    · have hmatch := combinedMatchLen_part P hokP hcp (renderTemplate rest)
      obtain ⟨t1, hP1⟩ := renderPart_choice_cons P hcp
      have hPlen : 1 ≤ (renderPart P).length := by
        rw [hP1]
        simp only [List.length_cons]
        omega
      have hsub : substChoices sel (P :: rest) i
          = TPart.lit (sel i) :: substChoices sel rest (i + 1) := by
        show (if isChoicePart P = true then TPart.lit (sel i) :: substChoices sel rest (i + 1)
          else P :: substChoices sel rest i) = _
        rw [if_pos hcp]
      have hren : renderTemplate (P :: rest) = renderPart P ++ renderTemplate rest := rfl
      have hrhs : renderTemplate (TPart.lit (sel i) :: substChoices sel rest (i + 1))
          = (sel i).data ++ renderTemplate (substChoices sel rest (i + 1)) := rfl
      rw [hren, hsub, hrhs]
      set L := (renderPart P).length with hL
      have hfuel : extra + (renderPart P ++ renderTemplate rest).length
          = ((extra + L - 1) + (renderTemplate rest).length) + 1 := by
        rw [List.length_append]; omega
      rw [hfuel]
      have hmatch2 : combinedMatchLen ('\x7b' :: (t1 ++ renderTemplate rest)) = some L := by
        rw [← List.cons_append, ← hP1]
        exact hmatch
      have hstep := replaceChoice_step_some sel ((extra + L - 1) + (renderTemplate rest).length)
        '\x7b' (t1 ++ renderTemplate rest) i L hmatch2 (by omega)
      rw [hP1, List.cons_append, hstep]
      have hdrop : ('\x7b' :: (t1 ++ renderTemplate rest)).drop L = renderTemplate rest := by
        rw [hL, ← List.cons_append, ← hP1, List.drop_left]
      rw [hdrop, ih hokR (extra + L - 1) (i + 1)]
    · cases P with
      | lit s =>
        have hbf : ∀ c ∈ s.data, c ≠ '\x7b' := by
          intro c hc h7
          have h2 := hokP
          simp only [partOk, List.all_eq_true] at h2
          have h3 := h2 c hc
          rw [h7] at h3
          exact absurd h3 (by decide)
        have hren : renderTemplate (TPart.lit s :: rest) = s.data ++ renderTemplate rest := rfl
        have hsub2 : substChoices sel (TPart.lit s :: rest) i
            = TPart.lit s :: substChoices sel rest i := rfl
        have hrhs : renderTemplate (TPart.lit s :: substChoices sel rest i)
            = s.data ++ renderTemplate (substChoices sel rest i) := rfl
        rw [hren, hsub2, hrhs]
        have hfuel : extra + (s.data ++ renderTemplate rest).length
            = (extra + (renderTemplate rest).length) + s.data.length := by
          rw [List.length_append]; omega
        rw [hfuel, replaceChoice_copy sel s.data hbf (extra + (renderTemplate rest).length)
          (renderTemplate rest) i, ih hokR extra i]
      | simple n =>
        have h2 := hokP
        simp only [partOk, Bool.and_eq_true] at h2
        obtain ⟨⟨hn, -⟩, -⟩ := h2
        obtain ⟨hnne, hword⟩ := wordStr_spec n hn
        obtain ⟨c0, nd', hnd⟩ := List.exists_cons_of_ne_nil hnne
        have hren : renderTemplate (TPart.simple n :: rest)
            = '\x7b' :: '\x7b' :: (n.data ++ '\x7d' :: '\x7d' :: renderTemplate rest) := by
          show ('\x7b' :: '\x7b' :: (n.data ++ ['\x7d', '\x7d'])) ++ renderTemplate rest = _
          simp [List.append_assoc]
        have hsub2 : substChoices sel (TPart.simple n :: rest) i
            = TPart.simple n :: substChoices sel rest i := rfl
        have hrhs : renderTemplate (TPart.simple n :: substChoices sel rest i)
            = '\x7b' :: '\x7b' :: (n.data ++ '\x7d' :: '\x7d' ::
              renderTemplate (substChoices sel rest i)) := by
          show ('\x7b' :: '\x7b' :: (n.data ++ ['\x7d', '\x7d'])) ++
            renderTemplate (substChoices sel rest i) = _
          simp [List.append_assoc]
        rw [hren, hsub2, hrhs]
        have hfuel : extra + ('\x7b' :: '\x7b' ::
            (n.data ++ '\x7d' :: '\x7d' :: renderTemplate rest)).length
            = (((extra + (renderTemplate rest).length + n.data.length + 2) + 1) + 1) := by
          simp only [List.length_cons, List.length_append]
          omega
        rw [hfuel]
        have h1 : combinedMatchLen ('\x7b' :: '\x7b' ::
            (n.data ++ '\x7d' :: '\x7d' :: renderTemplate rest)) = none :=
          combined_simple_blocked n hn (renderTemplate rest)
        rw [replaceChoice_step_none sel _ _ _ i h1]
        have hc0w : isWordChar c0 = true := hword c0 (by rw [hnd]; exact List.mem_cons_self _ _)
        have h2b : combinedMatchLen ('\x7b' ::
            (n.data ++ '\x7d' :: '\x7d' :: renderTemplate rest)) = none := by
          rw [hnd, List.cons_append]
          exact combined_none_second c0 _ (wordChar_spec c0 hc0w).2.1
        rw [replaceChoice_step_none sel _ _ _ i h2b]
        have hbf2 : ∀ c ∈ n.data ++ ['\x7d', '\x7d'], c ≠ '\x7b' := by
          intro c hc
          rcases List.mem_append.mp hc with hc | hc
          · exact (wordChar_spec c (hword c hc)).2.1
          · simp only [List.mem_cons, List.not_mem_nil, or_false] at hc
            rcases hc with rfl | rfl <;> decide
        have hassoc : n.data ++ '\x7d' :: '\x7d' :: renderTemplate rest
            = (n.data ++ ['\x7d', '\x7d']) ++ renderTemplate rest := by
          simp [List.append_assoc]
        rw [hassoc]
        have hfuel2 : extra + (renderTemplate rest).length + n.data.length + 2
            = (extra + (renderTemplate rest).length) + (n.data ++ ['\x7d', '\x7d']).length := by
          simp only [List.length_append, List.length_cons, List.length_nil]
          omega
        rw [hfuel2, replaceChoice_copy sel (n.data ++ ['\x7d', '\x7d']) hbf2
          (extra + (renderTemplate rest).length) (renderTemplate rest) i, ih hokR extra i]
        simp [List.append_assoc]
      | namedTok n opts d => exact absurd rfl hcp
      | anonTok opts d => exact absurd rfl hcp
      | radioTok opts d => exact absurd rfl hcp
      | aiTok p d => exact absurd rfl hcp

theorem matchSimpleFillAt_pos (n : String) (hn : wordStr n = true) (suffix : List Char) :
    matchSimpleFillAt ('\x7b' :: '\x7b' :: (n.data ++ '\x7d' :: '\x7d' :: suffix))
      = some (n.data.length + 4, n) := by
  obtain ⟨hne, hword⟩ := wordStr_spec n hn
  have hws : ∀ c ∈ n.data, isWsChar c = false := fun c hc => (wordChar_spec c (hword c hc)).1
  have hr1 : (n.data ++ '\x7d' :: '\x7d' :: suffix).dropWhile isWsChar
      = n.data ++ '\x7d' :: '\x7d' :: suffix :=
    dropWhile_append_first _ _ _ _ hws (by decide)
  have hname : (n.data ++ '\x7d' :: '\x7d' :: suffix).takeWhile isWordChar = n.data :=
    takeWhile_append_stop _ _ _ _ hword (by decide)
  unfold matchSimpleFillAt
  simp only [hr1, hname]
  rw [if_neg (by intro hE; exact hne (by simpa using hE))]
  rw [List.drop_left]
  simp only [dropWhile_ws_cons_ne _ _ (by decide : isWsChar '\x7d' = false)]
  have hlen : ('\x7b' :: '\x7b' :: (n.data ++ '\x7d' :: '\x7d' :: suffix)).length - suffix.length
      = n.data.length + 4 := by
    simp only [List.length_cons, List.length_append]
    omega
  rw [hlen]

theorem simpleFill_none_head (c : Char) (s : List Char) (hc : c ≠ '\x7b') :
    matchSimpleFillAt (c :: s) = none := by
  rw [matchSimpleFillAt.eq_def]
  split
  · next heq =>
    injection heq with h1 _
    exact absurd h1 hc
  · rfl

theorem simpleFill_none_second (c : Char) (s : List Char) (hc : c ≠ '\x7b') :
    matchSimpleFillAt ('\x7b' :: c :: s) = none := by
  rw [matchSimpleFillAt.eq_def]
  split
  · next heq =>
    injection heq with _ h2
    injection h2 with h2a _
    exact absurd h2a hc
  · rfl

theorem simpleFill_blocked (n : String) (hn : wordStr n = true) (suffix : List Char) :
    matchSimpleFillAt ('\x7b' :: (n.data ++ '\x7d' :: '\x7d' :: suffix)) = none := by
  obtain ⟨hne, hword⟩ := wordStr_spec n hn
  obtain ⟨c0, nd', hnd⟩ := List.exists_cons_of_ne_nil hne
  rw [hnd, List.cons_append]
  exact simpleFill_none_second c0 _
    (wordChar_spec c0 (hword c0 (by rw [hnd]; exact List.mem_cons_self _ _))).2.1

theorem replaceSimple_nil_input (values : String → Option String) (fuel : Nat) :
    replaceSimple values fuel [] = [] := by
  cases fuel <;> rfl

theorem replaceSimple_step_none (values : String → Option String) (fuel : Nat) (c : Char)
    (rest : List Char) (h : matchSimpleFillAt (c :: rest) = none) :
    replaceSimple values (fuel + 1) (c :: rest) = c :: replaceSimple values fuel rest := by
  show (match matchSimpleFillAt (c :: rest) with
    | some (len, name) =>
      if len = 0 then c :: replaceSimple values fuel rest
      else (match values name with
        | some v => v.data
        | none => []) ++ replaceSimple values fuel ((c :: rest).drop len)
    | none => c :: replaceSimple values fuel rest) = c :: replaceSimple values fuel rest
  rw [h]

theorem replaceSimple_step_some (values : String → Option String) (fuel : Nat) (c : Char)
    (rest : List Char) (len : Nat) (name : String)
    (h : matchSimpleFillAt (c :: rest) = some (len, name)) (hlen : len ≠ 0) :
    replaceSimple values (fuel + 1) (c :: rest)
      = (match values name with
          | some v => v.data
          | none => []) ++ replaceSimple values fuel ((c :: rest).drop len) := by
  show (match matchSimpleFillAt (c :: rest) with
    | some (len, name) =>
      if len = 0 then c :: replaceSimple values fuel rest
      else (match values name with
        | some v => v.data
        | none => []) ++ replaceSimple values fuel ((c :: rest).drop len)
    | none => c :: replaceSimple values fuel rest)
      = (match values name with
          | some v => v.data
          | none => []) ++ replaceSimple values fuel ((c :: rest).drop len)
  rw [h]
  show (if len = 0 then c :: replaceSimple values fuel rest
    else (match values name with
      | some v => v.data
      | none => []) ++ replaceSimple values fuel ((c :: rest).drop len))
      = (match values name with
          | some v => v.data
          | none => []) ++ replaceSimple values fuel ((c :: rest).drop len)
  rw [if_neg hlen]

theorem replaceSimple_copy (values : String → Option String) :
    ∀ (pre : List Char), (∀ c ∈ pre, c ≠ '\x7b') →
    ∀ (fuel : Nat) (s : List Char),
      replaceSimple values (fuel + pre.length) (pre ++ s) = pre ++ replaceSimple values fuel s := by
  intro pre
  induction pre with
  | nil => intro _ fuel s; rfl
  | cons c pre' ih =>
    intro h fuel s
    have hc : c ≠ '\x7b' := h c (List.mem_cons_self _ _)
    have hnone : matchSimpleFillAt (c :: (pre' ++ s)) = none := simpleFill_none_head c _ hc
    rw [List.cons_append]
    calc replaceSimple values (fuel + (c :: pre').length) (c :: (pre' ++ s))
        = c :: replaceSimple values (fuel + pre'.length) (pre' ++ s) :=
          replaceSimple_step_none values (fuel + pre'.length) c (pre' ++ s) hnone
      _ = c :: (pre' ++ replaceSimple values fuel s) := by
          rw [ih (fun d hd => h d (List.mem_cons_of_mem _ hd)) fuel s]
      _ = (c :: pre') ++ replaceSimple values fuel s := rfl

/-- Kind of part accepted by the second (simple) pass: brace-free literal or
word-character simple token. -/
def litSimpleOk : TPart → Bool
  | .lit s => s.data.all (fun c => c ≠ '\x7b' && c ≠ '\x7d')
  | .simple n => wordStr n
  | _ => false

theorem replaceSimple_render (values : String → Option String) :
    ∀ (parts : List TPart), (∀ p ∈ parts, litSimpleOk p = true) →
    ∀ (extra : Nat),
      replaceSimple values (extra + (renderTemplate parts).length) (renderTemplate parts)
        = outputSimple values parts := by
  intro parts
  induction parts with
  | nil => intro _ extra; exact replaceSimple_nil_input values _
  | cons P rest ih =>
    intro hok extra
    have hokP : litSimpleOk P = true := hok P (List.mem_cons_self _ _)
    have hokR : ∀ q ∈ rest, litSimpleOk q = true := fun q hq => hok q (List.mem_cons_of_mem _ hq)
    cases P with
    | lit s =>
      have hbf : ∀ c ∈ s.data, c ≠ '\x7b' := by
        intro c hc h7
        have h2 := hokP
        simp only [litSimpleOk, List.all_eq_true] at h2
        have h3 := h2 c hc
        rw [h7] at h3
        exact absurd h3 (by decide)
      have hren : renderTemplate (TPart.lit s :: rest) = s.data ++ renderTemplate rest := rfl
      have hrhs : outputSimple values (TPart.lit s :: rest)
          = s.data ++ outputSimple values rest := rfl
      rw [hren, hrhs]
      have hfuel : extra + (s.data ++ renderTemplate rest).length
          = (extra + (renderTemplate rest).length) + s.data.length := by
        rw [List.length_append]; omega
      rw [hfuel, replaceSimple_copy values s.data hbf (extra + (renderTemplate rest).length)
        (renderTemplate rest), ih hokR extra]
    | simple n =>
      have hn : wordStr n = true := hokP
      have hren : renderTemplate (TPart.simple n :: rest)
          = '\x7b' :: '\x7b' :: (n.data ++ '\x7d' :: '\x7d' :: renderTemplate rest) := by
        show ('\x7b' :: '\x7b' :: (n.data ++ ['\x7d', '\x7d'])) ++ renderTemplate rest = _
        simp [List.append_assoc]
      have hrhs : outputSimple values (TPart.simple n :: rest)
          = ((values n).getD "").data ++ outputSimple values rest := rfl
      rw [hren, hrhs]
      have hfuel : extra + ('\x7b' :: '\x7b' ::
          (n.data ++ '\x7d' :: '\x7d' :: renderTemplate rest)).length
          = ((extra + n.data.length + 3) + (renderTemplate rest).length) + 1 := by
        simp only [List.length_cons, List.length_append]
        omega
      rw [hfuel]
      have hmatch := matchSimpleFillAt_pos n hn (renderTemplate rest)
      rw [replaceSimple_step_some values ((extra + n.data.length + 3) + (renderTemplate rest).length)
        '\x7b' ('\x7b' :: (n.data ++ '\x7d' :: '\x7d' :: renderTemplate rest)) (n.data.length + 4) n
        hmatch (by omega)]
      have hdrop : ('\x7b' :: '\x7b' ::
          (n.data ++ '\x7d' :: '\x7d' :: renderTemplate rest)).drop (n.data.length + 4)
          = renderTemplate rest := by
        have hlist : ('\x7b' : Char) :: '\x7b' :: (n.data ++ '\x7d' :: '\x7d' :: renderTemplate rest)
            = ('\x7b' :: '\x7b' :: (n.data ++ ['\x7d', '\x7d'])) ++ renderTemplate rest := by
          simp [List.append_assoc]
        have hlen2 : n.data.length + 4
            = ('\x7b' :: '\x7b' :: (n.data ++ ['\x7d', '\x7d'])).length := by
          simp only [List.length_cons, List.length_append, List.length_nil]
        rw [hlist, hlen2, List.drop_left]
      rw [hdrop]
      have hhead : (match values n with
          | some v => v.data
          | none => ([] : List Char)) = ((values n).getD "").data := by
        cases values n <;> rfl
      rw [hhead, ih hokR (extra + n.data.length + 3)]
    | namedTok n opts d => exact Bool.noConfusion hokP
    | anonTok opts d => exact Bool.noConfusion hokP
    | radioTok opts d => exact Bool.noConfusion hokP
    | aiTok p d => exact Bool.noConfusion hokP

theorem substChoices_litSimpleOk (sel : Nat → String)
    (hsel : ∀ i, (sel i).data.all (fun c => c ≠ '\x7b' && c ≠ '\x7d') = true) :
    ∀ (parts : List TPart), (∀ p ∈ parts, partOk p = true) →
    ∀ (i : Nat) (q : TPart), q ∈ substChoices sel parts i → litSimpleOk q = true := by
  intro parts
  induction parts with
  | nil => intro _ i q hq; exact absurd hq (List.not_mem_nil q)
  | cons p rest ih =>
    intro hok i q hq
    have hokp := hok p (List.mem_cons_self _ _)
    have hokr : ∀ r ∈ rest, partOk r = true := fun r hr => hok r (List.mem_cons_of_mem _ hr)
    by_cases hcp : isChoicePart p = true
    · rw [show substChoices sel (p :: rest) i
          = TPart.lit (sel i) :: substChoices sel rest (i + 1) from by
        show (if isChoicePart p = true then TPart.lit (sel i) :: substChoices sel rest (i + 1)
          else p :: substChoices sel rest i) = _
        rw [if_pos hcp]] at hq
      rcases List.mem_cons.mp hq with rfl | hq
      · exact hsel i
      · exact ih hokr (i + 1) q hq
    · rw [show substChoices sel (p :: rest) i = p :: substChoices sel rest i from by
        show (if isChoicePart p = true then TPart.lit (sel i) :: substChoices sel rest (i + 1)
          else p :: substChoices sel rest i) = _
        rw [if_neg hcp]] at hq
      rcases List.mem_cons.mp hq with rfl | hq
      · cases q with
        | lit s => exact hokp
        | simple n =>
          have h2 := hokp
          simp only [partOk, Bool.and_eq_true] at h2
          exact h2.1.1
        | namedTok n opts d => exact absurd rfl hcp
        | anonTok opts d => exact absurd rfl hcp
        | radioTok opts d => exact absurd rfl hcp
        | aiTok pr d => exact absurd rfl hcp
      · exact ih hokr i q hq

theorem simpleNames_subst (sel : Nat → String) :
    ∀ (parts : List TPart) (i : Nat),
      simpleNames (substChoices sel parts i) = simpleNames parts := by
  intro parts
  induction parts with
  | nil => intro i; rfl
  | cons p rest ih =>
    intro i
    by_cases hcp : isChoicePart p = true
    · rw [show substChoices sel (p :: rest) i
          = TPart.lit (sel i) :: substChoices sel rest (i + 1) from by
        show (if isChoicePart p = true then TPart.lit (sel i) :: substChoices sel rest (i + 1)
          else p :: substChoices sel rest i) = _
        rw [if_pos hcp]]
      show simpleNames (substChoices sel rest (i + 1)) = simpleNames (p :: rest)
      rw [ih (i + 1)]
      cases p with
      | lit s => exact Bool.noConfusion hcp
      | simple n => exact Bool.noConfusion hcp
      | namedTok n opts d => rfl
      | anonTok opts d => rfl
      | radioTok opts d => rfl
      | aiTok pr d => rfl
    · rw [show substChoices sel (p :: rest) i = p :: substChoices sel rest i from by
        show (if isChoicePart p = true then TPart.lit (sel i) :: substChoices sel rest (i + 1)
          else p :: substChoices sel rest i) = _
        rw [if_neg hcp]]
      cases p with
      | lit s =>
        show simpleNames (substChoices sel rest i) = simpleNames rest
        exact ih i
      | simple n =>
        show n :: simpleNames (substChoices sel rest i) = n :: simpleNames rest
        rw [ih i]
      | namedTok n opts d => exact absurd rfl hcp
      | anonTok opts d => exact absurd rfl hcp
      | radioTok opts d => exact absurd rfl hcp
      | aiTok pr d => exact absurd rfl hcp

theorem hasDoubleBraceAux_eq_false :
    ∀ (l : List Char), (∀ c ∈ l, c ≠ '\x7b') → hasDoubleBraceAux l = false := by
  intro l
  induction l with
  | nil => intro _; rfl
  | cons c rest ih =>
    intro h
    rw [hasDoubleBraceAux.eq_def]
    split
    · next heq =>
      injection heq with h1 _
      exact absurd h1 (h c (List.mem_cons_self _ _))
    · next heq =>
      injection heq with _ h2
      rw [← h2]
      exact ih (fun d hd => h d (List.mem_cons_of_mem _ hd))
    · next heq =>
      exact absurd heq (by simp)

theorem outputSimple_chars (values : String → Option String) :
    ∀ (parts : List TPart), (∀ p ∈ parts, litSimpleOk p = true) →
    (∀ n ∈ simpleNames parts, ∀ c ∈ ((values n).getD "").data, c ≠ '\x7b') →
    ∀ c ∈ outputSimple values parts, c ≠ '\x7b' := by
  intro parts
  induction parts with
  | nil => intro _ _ c hc; exact absurd hc (List.not_mem_nil c)
  | cons p rest ih =>
    intro hok hv c hc
    have hokr : ∀ r ∈ rest, litSimpleOk r = true := fun r hr => hok r (List.mem_cons_of_mem _ hr)
    cases p with
    | lit s =>
      have hc' : c ∈ s.data ++ outputSimple values rest := hc
      rcases List.mem_append.mp hc' with hcs | hcr
      · have h2 := hok (TPart.lit s) (List.mem_cons_self _ _)
        simp only [litSimpleOk, List.all_eq_true] at h2
        have h3 := h2 c hcs
        intro h7
        rw [h7] at h3
        exact absurd h3 (by decide)
      · exact ih hokr (fun n hn => hv n hn) c hcr
    | simple n =>
      have hc' : c ∈ ((values n).getD "").data ++ outputSimple values rest := hc
      rcases List.mem_append.mp hc' with hcs | hcr
      · exact hv n (List.mem_cons_self _ _) c hcs
      · exact ih hokr (fun m hm => hv m (List.mem_cons_of_mem _ hm)) c hcr
    | namedTok n opts d => exact Bool.noConfusion (hok _ (List.mem_cons_self _ _))
    | anonTok opts d => exact Bool.noConfusion (hok _ (List.mem_cons_self _ _))
    | radioTok opts d => exact Bool.noConfusion (hok _ (List.mem_cons_self _ _))
    | aiTok pr d => exact Bool.noConfusion (hok _ (List.mem_cons_self _ _))

theorem fillChoice_render (parts : List TPart) (hok : ∀ p ∈ parts, partOk p = true)
    (sels : List String) (hne : sels ≠ []) :
    fillChoicePlaceholders ⟨renderTemplate parts⟩ sels
      = ⟨renderTemplate (substChoices (fun i => ((sels.get? i).getD "")) parts 0)⟩ := by
  obtain ⟨s0, sl, rfl⟩ := List.exists_cons_of_ne_nil hne
  unfold fillChoicePlaceholders
  rw [if_neg (fun h => Bool.noConfusion h)]
  have hm := replaceChoice_render (fun i => (((s0 :: sl).get? i).getD "")) parts hok 0 0
  rw [Nat.zero_add] at hm
  exact congrArg String.mk hm

/-- Claim C6 (amended): the no-remaining-token guarantee holds for canonical
templates — concatenations of brace-free literal text and rendered tokens
whose names, options, prompts and defaults are nonempty words over the
`[\w.-]` alphabet, with at least two options per choice token. For such a
template, applying the Choice Filler with a nonempty, brace-free selections
list of exactly the token count and then the Simple Filler with a complete
brace-free value map yields a string that contains no remaining `\x7b\x7b`
of any recognized syntax; the restriction to canonical templates is needed,
as the counterexample below shows. -/
theorem fill_resolved_no_braces (parts : List TPart) (sels : List String)
    (values : String → Option String)
    (hok : ∀ p ∈ parts, partOk p = true)
    (hcount : sels.length = countChoice parts)
    (hne : sels ≠ [])
    (hsels : ∀ s ∈ sels, s.data.all (fun c => c ≠ '\x7b' && c ≠ '\x7d') = true)
    (hsome : ∀ n ∈ simpleNames parts, (values n).isSome = true)
    (hvals : ∀ n ∈ simpleNames parts, ((values n).getD "").data.all
      (fun c => c ≠ '\x7b' && c ≠ '\x7d') = true) :
    hasDoubleBrace (fillPlaceholders (fillChoicePlaceholders ⟨renderTemplate parts⟩ sels) values)
      = false := by
  rw [fillChoice_render parts hok sels hne]
  have hselB : ∀ i, (((sels.get? i).getD "") : String).data.all
      (fun c => c ≠ '\x7b' && c ≠ '\x7d') = true := by
    intro i
    cases hgi : sels.get? i with
    | none => rfl
    | some s => exact hsels s (List.get?_mem hgi)
  have hok2 : ∀ q ∈ substChoices (fun i => ((sels.get? i).getD "")) parts 0,
      litSimpleOk q = true :=
    fun q hq => substChoices_litSimpleOk _ hselB parts hok 0 q hq
  unfold fillPlaceholders
  have hm := replaceSimple_render values
    (substChoices (fun i => ((sels.get? i).getD "")) parts 0) hok2 0
  rw [Nat.zero_add] at hm
  show hasDoubleBraceAux (replaceSimple values
    (renderTemplate (substChoices (fun i => ((sels.get? i).getD "")) parts 0)).length
    (renderTemplate (substChoices (fun i => ((sels.get? i).getD "")) parts 0))) = false
  rw [hm]
  refine hasDoubleBraceAux_eq_false _ ?_
  refine outputSimple_chars values _ hok2 ?_
  intro n hn c hc
  rw [simpleNames_subst] at hn
  have h2 := hvals n hn
  simp only [List.all_eq_true] at h2
  have h3 := h2 c hc
  intro h7
  rw [h7] at h3
  exact absurd h3 (by decide)

/-- Witness: a canonical template with every token kind, four selections and
a complete simple-value map resolves to a string with no `\x7b\x7b` left. -/
theorem fill_resolved_no_braces_witness :
    hasDoubleBrace (fillPlaceholders (fillChoicePlaceholders
      ⟨renderTemplate [TPart.lit "Hello ", TPart.simple "name", TPart.lit " ",
        TPart.namedTok "color" ["red", "blue"] (some "red"),
        TPart.anonTok ["a", "b"] none,
        TPart.radioTok ["x", "y"] none,
        TPart.aiTok "topic" (some "dd")]⟩
      ["red", "a", "x", "T"])
      (fun n => if n = "name" then some "World" else none)) = false :=
  fill_resolved_no_braces _ _ _ (by decide) (by decide) (by decide) (by decide)
    (by decide) (by decide)

/-- The original C6 claim fails on a template whose simple token name falls
outside the filler's `[\w.-]` alphabet: `\x7b\x7ba b\x7d\x7d` has zero
non-simple tokens and the single simple name `a b`, yet filling with zero
selections and a complete value map leaves the `\x7b\x7b` in place, because
`fillPlaceholders`' replacement regex cannot match the name the parser
extracted. -/
theorem fill_unrecognized_token_counterexample :
    parseChoicePlaceholders "\x7b\x7ba b\x7d\x7d" = [] ∧
    parsePlaceholders "\x7b\x7ba b\x7d\x7d" = ["a b"] ∧
    hasDoubleBrace (fillPlaceholders
      (fillChoicePlaceholders "\x7b\x7ba b\x7d\x7d" [])
      (fun n => if n = "a b" then some "value" else none)) = true := by
  refine ⟨by decide, by decide, by decide⟩
